import Mathlib

set_option maxRecDepth 4000

/-! Shallow embedding of the spatial weights container `W` of
`pysal/weights/__init__.py`, together with specification-level
definitions and theorems settling the documented claims.

Python dictionaries are modelled as association lists whose order is the
iteration order of the dictionary; Python lists as `List`; Python float
values as the exact fraction type `Q` below; operations that can raise
an exception return `Option` (with `none` for the raised exception) or
`Except` when the raised message matters. -/

/-- Exact fraction standing in for Python float values.  Numerator and
denominator are kept unreduced; all arithmetic of the source on these
values is exact, so fractions model it faithfully.  Division, the one
fallible float operation used by the source, is modelled by
`divChecked` below. -/
structure Q where
  n : Int
  d : Int
deriving DecidableEq, Inhabited

instance (priority := low) : OfNat Q k := ⟨⟨(k : Int), 1⟩⟩

instance : Zero Q := ⟨⟨0, 1⟩⟩

instance : One Q := ⟨⟨1, 1⟩⟩

instance : Add Q := ⟨fun a b => ⟨a.n * b.d + b.n * a.d, a.d * b.d⟩⟩

instance : Mul Q := ⟨fun a b => ⟨a.n * b.n, a.d * b.d⟩⟩

instance : Sub Q := ⟨fun a b => ⟨a.n * b.d - b.n * a.d, a.d * b.d⟩⟩

instance : AddCommMonoid Q where
  add_assoc a b c := congrArg₂ Q.mk (by show (a.n * b.d + b.n * a.d) * c.d + c.n * (a.d * b.d) = a.n * (b.d * c.d) + (b.n * c.d + c.n * b.d) * a.d; ring) (by show a.d * b.d * c.d = a.d * (b.d * c.d); ring)
  zero_add a := by
    cases a with
    | mk n d => exact congrArg₂ Q.mk (by show 0 * d + n * 1 = n; ring) (by show 1 * d = d; ring)
  add_zero a := by
    cases a with
    | mk n d => exact congrArg₂ Q.mk (by show n * 1 + 0 * d = n; ring) (by show d * 1 = d; ring)
  add_comm a b := congrArg₂ Q.mk (by show a.n * b.d + b.n * a.d = b.n * a.d + a.n * b.d; ring) (by show a.d * b.d = b.d * a.d; ring)
  nsmul := nsmulRec

/-- Conversion of a Python int to a float value. -/
def Q.ofNat (k : Nat) : Q := ⟨(k : Int), 1⟩

/-- Python float division `a / b`: raises `ZeroDivisionError` when the
divisor is the value zero.  A `Q` value is zero exactly when its
numerator is (denominators of embedded values are never zero). -/
def divChecked (a b : Q) : Option Q :=
  if b.n = 0 then none else some ⟨a.n * b.d, a.d * b.n⟩

/-- Unchecked fraction division; used only where the source divides by a
constant that is never zero, or inside the `np.std` stand-in (numpy
float division produces nan rather than raising). -/
def qdivU (a b : Q) : Q := ⟨a.n * b.d, a.d * b.n⟩

/-- Newton iteration for the integer square root, with explicit fuel
(the iteration converges long before the fuel runs out). -/
def sqrtIter (fuel : Nat) (m : Nat) (x : Nat) : Nat :=
  match fuel with
  | 0 => x
  | fuel + 1 =>
      let next := (x + m / x) / 2
      if next < x then sqrtIter fuel m next else x

/-- Largest natural number whose square does not exceed `m`. -/
def natSqrt (m : Nat) : Nat :=
  if m ≤ 1 then m else sqrtIter m m (m / 2 + 1)

def intSqrt (i : Int) : Int := if i < 0 then 0 else (natSqrt i.toNat : Int)

/-- Stand-in for the float square root used by `math.sqrt` in the `V`
transform and inside `np.std`: exact on perfect squares, rounded
otherwise.  No claim settled in this development depends on the values
this function returns. -/
def sqrtQ (q : Q) : Q := ⟨intSqrt q.n, intSqrt q.d⟩

/-- Population standard deviation of a list of counts, mirroring
`np.std` (mean over the list length, biased variance, float sqrt). -/
def stdQ (vals : List Nat) : Q :=
  let m := qdivU (Q.ofNat vals.sum) (Q.ofNat vals.length)
  sqrtQ (qdivU ((vals.map (fun v => (Q.ofNat v - m) * (Q.ofNat v - m))).sum)
    (Q.ofNat vals.length))

/-- Python dict lookup `d[k]` on an association list: first entry with
the given key, `none` when the key is absent (`KeyError`). -/
def alookup {α β : Type} [DecidableEq α] (k : α) : List (α × β) → Option β
  | [] => none
  | p :: rest => if p.1 = k then some p.2 else alookup k rest

/-- Python dict store `d[k] = v`: replaces the entry in place when the
key is present, appends it otherwise. -/
def assocSet {α β : Type} [DecidableEq α] (k : α) (v : β) :
    List (α × β) → List (α × β)
  | [] => [(k, v)]
  | p :: rest => if p.1 = k then (k, v) :: rest else p :: assocSet k v rest

/-- Python `d[k] += v` for a key known to be present (the source always
guards the increment with an insertion of a zero entry); on an absent
key the list is returned unchanged, a case the source never reaches. -/
def assocIncr {α : Type} [DecidableEq α] (k : α) (v : Q) :
    List (α × Q) → List (α × Q)
  | [] => []
  | p :: rest => if p.1 = k then (p.1, p.2 + v) :: rest else p :: assocIncr k v rest

/-- Keys of an association list, in iteration order. -/
def assocKeys {α β : Type} (l : List (α × β)) : List α := l.map Prod.fst

/-- Python list indexing `l[i]`: `none` models `IndexError`. -/
def aget {α : Type} : List α → Nat → Option α
  | [], _ => none
  | x :: _, 0 => some x
  | _ :: t, k + 1 => aget t k

/-- Python `l.index(x)`: position of the first occurrence; returns the
length when absent, so that `aget l (aindex x l)` is `none` exactly when
`l.index(x)` would raise `ValueError`. -/
def aindex {α : Type} [DecidableEq α] (x : α) : List α → Nat
  | [] => 0
  | y :: rest => if y = x then 0 else aindex x rest + 1

/-- Python `max(l)` on counts; `none` models the `ValueError` raised on
an empty list. -/
def listMax : List Nat → Option Nat
  | [] => none
  | v :: rest => some (rest.foldl Nat.max v)

/-- Python `min(l)` on counts; `none` models the `ValueError` raised on
an empty list. -/
def listMin : List Nat → Option Nat
  | [] => none
  | v :: rest => some (rest.foldl Nat.min v)

/-- Python `set(a) == set(b)`. -/
def listSetEq {α : Type} [DecidableEq α] (a b : List α) : Bool :=
  a.all (fun x => decide (x ∈ b)) && b.all (fun x => decide (x ∈ a))

def charUpper (c : Char) : Char :=
  if 97 ≤ c.toNat ∧ c.toNat ≤ 122 then Char.ofNat (c.toNat - 32) else c

/-- Python `s.upper()` for ASCII strings such as transform names. -/
def toUpperS (s : String) : String := ⟨s.data.map charUpper⟩

/-- Precision constant of the source module (unused by the core). -/
def DELTA : Q := ⟨1, 10000000⟩

/-- One asymmetry record: `((i,j), (j,i))` is encoded with `some (j,i)`
and the missing-reciprocal marker `((i,j), ())` with `none`. -/
abbrev Asym : Type := (Nat × Nat) × Option (Nat × Nat)

/-- Accumulators of the main loop of `W._characteristics`. -/
structure Accum where
  s0 : Q
  s1 : Q
  colSum : List (Nat × Q)
  rowSum : List (Nat × Q)
  cardinalities : List (Nat × Nat)
  nonzero : Nat
deriving DecidableEq, Inhabited

/-- Derived summary attributes computed by `W._characteristics`. -/
structure Chars where
  s0 : Q
  s1 : Q
  s2 : Q
  cardinalities : List (Nat × Nat)
  max_neighbors : Nat
  min_neighbors : Nat
  sd : Q
  mean_neighbors : Q
  n : Nat
  pct_nonzero : Q
  nonzero : Nat
  asymmetric : Bool
  islands : List Nat
  histogram : List (Nat × Nat)
deriving DecidableEq, Inhabited

/-- State of the spatial weights container (class `W` of the source).
The attributes first assigned inside `_characteristics` are initialized
with placeholder values by the constructor, then immediately
overwritten by the `_characteristics` call it performs. -/
structure W where
  neighbors : List (Nat × List Nat)
  weights : List (Nat × List Q)
  transformations : List (String × List (Nat × List Q))
  _id_order : List Nat
  _id_order_set : Bool
  _idx : Nat
  neighbors_0 : Option (List (Nat × List Nat))
  neighbor_0_ids : Option (List (Nat × Nat))
  n : Nat
  n_1 : Int
  _transform : Option String
  s0 : Q
  s1 : Q
  s2 : Q
  cardinalities : List (Nat × Nat)
  max_neighbors : Nat
  min_neighbors : Nat
  sd : Q
  mean_neighbors : Q
  pct_nonzero : Q
  nonzero : Nat
  asymmetric : Bool
  islands : List Nat
  histogram : List (Nat × Nat)
deriving DecidableEq, Inhabited

/-- The block `if i not in col_sum: col_sum[i]=0; row_sum[i]=0` followed
by `col_sum[i] += wji; row_sum[i] += wij` of `_characteristics`. -/
def sumUpdate (i : Nat) (wji wij : Q) (a : Accum) : Accum :=
  let a1 :=
    if (alookup i a.colSum).isNone then
      { a with colSum := assocSet i (0 : Q) a.colSum,
               rowSum := assocSet i (0 : Q) a.rowSum }
    else a
  { a1 with colSum := assocIncr i wji a1.colSum, rowSum := assocIncr i wij a1.rowSum }

/-- Inner loop of `_characteristics`: `for j in neighbors_i: ...`; the
conditionals mirror `if i in neighbors_j: wji = w_j[neighbors_j.index(i)]`
with the initialization `wij = wji = 0`. -/
def edgeLoop (neighbors : List (Nat × List Nat)) (weights : List (Nat × List Q))
    (i : Nat) (neighbors_i : List Nat) (w_i : List Q) :
    List Nat → Accum → Option Accum
  | [], a => some a
  | j :: rest, a =>
      (alookup j weights).bind fun w_j =>
      (alookup j neighbors).bind fun neighbors_j =>
      (if i ∈ neighbors_j then aget w_j (aindex i neighbors_j) else some (0 : Q)).bind fun wji =>
      (if j ∈ neighbors_i then aget w_i (aindex j neighbors_i) else some (0 : Q)).bind fun wij =>
      edgeLoop neighbors weights i neighbors_i w_i rest
        { sumUpdate i wji wij a with
          s1 := a.s1 + (wij + wji) * (wij + wji), s0 := a.s0 + wij,
          nonzero := a.nonzero + 1 }

/-- Outer loop of `_characteristics`: `for i in self._id_order: ...`. -/
def idLoop (neighbors : List (Nat × List Nat)) (weights : List (Nat × List Q)) :
    List Nat → Accum → Option Accum
  | [], a => some a
  | i :: rest, a => do
      let neighbors_i ← alookup i neighbors
      let a := { a with cardinalities := assocSet i neighbors_i.length a.cardinalities }
      let w_i ← alookup i weights
      let a ← edgeLoop neighbors weights i neighbors_i w_i neighbors_i a
      idLoop neighbors weights rest a

/-- The `s2` list comprehension
`[(col_sum[i]+row_sum[i])**2 for i in col_sum.keys()]`. -/
def s2Terms (rowSum : List (Nat × Q)) : List (Nat × Q) → Option (List Q)
  | [] => some []
  | (i, ci) :: rest => do
      let ri ← alookup i rowSum
      let rest' ← s2Terms rowSum rest
      pure ((ci + ri) * (ci + ri) :: rest')

/-- Body of `W.asymmetry` for one id `i`:
`for pos, j in enumerate(neighbors): ...`.  The `try` block of the
source is the inner `match`: any failure inside it (missing key, `i`
not a neighbor of `j`, index out of range) is caught and recorded as a
missing-reciprocal entry. -/
def asymRow (neighbors : List (Nat × List Nat)) (weights : List (Nat × List Q))
    (nonzero : Bool) (i : Nat) : List (Nat × Nat) → Option (List Asym)
  | [] => some []
  | (pos, j) :: rest => do
      let w_i ← alookup i weights
      let wij ← aget w_i pos
      let rest' ← asymRow neighbors weights nonzero i rest
      match (do
          let w_j ← alookup j weights
          let neighbors_j ← alookup j neighbors
          aget w_j (aindex i neighbors_j) : Option Q) with
      | some wji =>
          if nonzero = false ∧ wij ≠ wji then pure (((i, j), some (j, i)) :: rest')
          else pure rest'
      | none => pure (((i, j), none) :: rest')

/-- Outer loop of `W.asymmetry`:
`for i, neighbors in self.neighbors.iteritems(): ...`. -/
def asymLoop (neighbors : List (Nat × List Nat)) (weights : List (Nat × List Q))
    (nonzero : Bool) : List (Nat × List Nat) → Option (List Asym)
  | [] => some []
  | (i, ns) :: rest => do
      let row ← asymRow neighbors weights nonzero i ns.enum
      let rest' ← asymLoop neighbors weights nonzero rest
      pure (row ++ rest')

/-- Method `W.asymmetry(nonzero=True)` of the source. -/
def W.asymmetry (w : W) (nonzero : Bool := true) : Option (List Asym) :=
  asymLoop w.neighbors w.weights nonzero w.neighbors

/-- The computation performed by `W._characteristics`, as a function of
the three attributes it reads: `neighbors`, `weights`, `_id_order`. -/
def characteristicsOf (neighbors : List (Nat × List Nat))
    (weights : List (Nat × List Q)) (idOrder : List Nat) : Option Chars := do
  let n := weights.length
  let a ← idLoop neighbors weights idOrder ⟨0, 0, [], [], [], 0⟩
  let s1 := qdivU a.s1 (2 : Q)
  let terms ← s2Terms a.rowSum a.colSum
  let s2 := terms.sum
  let cardinalities := a.cardinalities
  let vals := cardinalities.map Prod.snd
  let mx ← listMax vals
  let mn ← listMin vals
  let sd := stdQ vals
  let mean ← divChecked (Q.ofNat vals.sum) (Q.ofNat n * (1 : Q))
  let pct ← divChecked (Q.ofNat a.nonzero) (((1 : Q) * Q.ofNat n) * Q.ofNat n)
  let asyms ← asymLoop neighbors weights true neighbors
  let asymmetric := !asyms.isEmpty
  let islands := (cardinalities.filter (fun p => p.2 == 0)).map Prod.fst
  let histogram := (List.range' mn (mx + 1 - mn)).map (fun c => (c, vals.count c))
  pure { s0 := a.s0, s1 := s1, s2 := s2, cardinalities := cardinalities,
         max_neighbors := mx, min_neighbors := mn, sd := sd,
         mean_neighbors := mean, n := n, pct_nonzero := pct,
         nonzero := a.nonzero, asymmetric := asymmetric,
         islands := islands, histogram := histogram }

/-- Store the attributes computed by `_characteristics` on the state. -/
def applyChars (w : W) (c : Chars) : W :=
  { w with s0 := c.s0, s1 := c.s1, s2 := c.s2,
           cardinalities := c.cardinalities,
           max_neighbors := c.max_neighbors, min_neighbors := c.min_neighbors,
           sd := c.sd, mean_neighbors := c.mean_neighbors, n := c.n,
           pct_nonzero := c.pct_nonzero, nonzero := c.nonzero,
           asymmetric := c.asymmetric, islands := c.islands,
           histogram := c.histogram }

/-- Method `W._characteristics` of the source. -/
def W._characteristics (w : W) : Option W :=
  (characteristicsOf w.neighbors w.weights w._id_order).map (applyChars w)

/-- The attribute assignments of `W.__init__` before its
`_characteristics()` call: synthesized uniform weights when `weights`
is absent or empty (Python falsy), the `"O"` snapshot, the sorted or
user supplied iteration order, and placeholder values for the
attributes `_characteristics` assigns. -/
def initialW (neighbors : List (Nat × List Nat))
    (weights? : Option (List (Nat × List Q)))
    (id_order? : Option (List Nat)) : W :=
  let weights := match weights? with
    | none => neighbors.map (fun p => (p.1, p.2.map (fun _ => (1 : Q))))
    | some ws =>
        if ws.isEmpty then neighbors.map (fun p => (p.1, p.2.map (fun _ => (1 : Q))))
        else ws
  let idOrder := match id_order? with
    | none => List.insertionSort (· ≤ ·) (assocKeys neighbors)
    | some o => o
  { neighbors := neighbors, weights := weights,
    transformations := [("O", weights)],
    _id_order := idOrder, _id_order_set := id_order?.isSome,
    _idx := 0, neighbors_0 := none, neighbor_0_ids := none,
    n := neighbors.length, n_1 := (neighbors.length : Int) - 1,
    _transform := none,
    s0 := 0, s1 := 0, s2 := 0, cardinalities := [], max_neighbors := 0,
    min_neighbors := 0, sd := 0, mean_neighbors := 0, pct_nonzero := 0,
    nonzero := 0, asymmetric := false, islands := [], histogram := [] }

/-- Constructor `W.__init__(neighbors, weights=None, id_order=None)`:
the attribute assignments above followed by `self._characteristics()`
and the final `self._transform = None`. -/
def W.init (neighbors : List (Nat × List Nat))
    (weights? : Option (List (Nat × List Q)) := none)
    (id_order? : Option (List Nat) := none) : Option W :=
  (W._characteristics (initialW neighbors weights? id_order?)).map
    (fun w' => { w' with _transform := none })

/-- Property getter `W.transform`. -/
def W.get_transform (w : W) : Option String := w._transform

/-- Setter `W.id_order = ordered_ids` (method `__set_id_order`). -/
def W.set_id_order (w : W) (ordered_ids : List Nat) : Except String W :=
  if listSetEq w._id_order ordered_ids then
    Except.ok { w with _id_order := ordered_ids, _idx := 0, _id_order_set := true,
                       neighbor_0_ids := some [], neighbors_0 := none }
  else Except.error "ordered_ids do not align with W ids"

/-- One division of a weight row by a
common divisor, as in the list comprehensions of the `R` and `V`
branches of `set_transform`. -/
def divRow : List Q → Q → Option (List Q)
  | [], _ => some []
  | wij :: rest, r => do
      let x ← divChecked wij r
      let rest' ← divRow rest r
      pure (x :: rest')

/-- The `R` branch row loop: `for i in self.weights: ...` building the
row-standardized weights dictionary. -/
def rowsTransformR : List (Nat × List Q) → Option (List (Nat × List Q))
  | [] => some []
  | (i, wijs) :: rest => do
      let row_sum := wijs.sum * (1 : Q)
      let ws ← divRow wijs row_sum
      let rest' ← rowsTransformR rest
      pure ((i, ws) :: rest')

/-- The `V` branch first loop, computing `s[i] = [wij / q[i] ...]` with
`q[i] = sqrt(sum(wij**2))`. -/
def rowsTransformV : List (Nat × List Q) → Option (List (Nat × List Q))
  | [] => some []
  | (i, wijs) :: rest => do
      let qi := sqrtQ ((wijs.map (fun wij => wij * wij)).sum)
      let si ← divRow wijs qi
      let rest' ← rowsTransformV rest
      pure ((i, si) :: rest')

/-- The `R` (row standardization) branch of `set_transform`. -/
def transformR (w : W) : Option W := do
  let weights ← rowsTransformR w.weights
  W._characteristics
    { w with transformations := assocSet "R" weights w.transformations,
             weights := weights }

/-- The `D` (double standardization) branch of `set_transform`; the
source recomputes the characteristics first to refresh `s0`. -/
def transformD (w : W) : Option W := do
  let w ← W._characteristics w
  let s0 := w.s0
  let ws ← divChecked (1 : Q) s0
  let weights := w.weights.map (fun p => (p.1, p.2.map (fun wij => wij * ws)))
  W._characteristics
    { w with transformations := assocSet "D" weights w.transformations,
             weights := weights }

/-- The `B` (binary) branch of `set_transform`. -/
def transformB (w : W) : Option W :=
  let weights := w.weights.map (fun p => (p.1, p.2.map (fun _ => (1 : Q))))
  W._characteristics
    { w with transformations := assocSet "B" weights w.transformations,
             weights := weights }

/-- The `V` (variance stabilizing) branch of `set_transform`.  Note
that, unlike the other branches, the source does not store the computed
weights in `self.transformations`. -/
def transformV (w : W) : Option W := do
  let qs ← rowsTransformV w.weights
  let qsum := (qs.map (fun p => p.2.sum)).sum
  let nQ ← divChecked (Q.ofNat w.n) qsum
  let weights := qs.map (fun p => (p.1, p.2.map (fun s => s * nQ)))
  W._characteristics { w with weights := weights }

/-- Setter `W.transform = value` (method `set_transform`).  The `Bool`
of the result records whether the branch printing
`unsupported weights transformation` was taken; `none` models an
exception raised inside the call. -/
def W.set_transform (w : W) (value : String := "B") : Option (W × Bool) :=
  let value := toUpperS value
  let w := { w with _transform := some value }
  match alookup value w.transformations with
  | some cached =>
      (W._characteristics { w with weights := cached }).map (fun w' => (w', false))
  | none =>
      if value = "R" then (transformR w).map (fun w' => (w', false))
      else if value = "D" then (transformD w).map (fun w' => (w', false))
      else if value = "B" then (transformB w).map (fun w' => (w', false))
      else if value = "V" then (transformV w).map (fun w' => (w', false))
      else if value = "O" then
        (alookup value w.transformations).map (fun original =>
          ({ w with weights := original }, false))
      else some (w, true)

/-- A sequence of `transform` assignments, stopping at an exception. -/
def applyTransforms (w : W) : List String → Option W
  | [] => some w
  | t :: rest =>
      match W.set_transform w t with
      | some (w', _) => applyTransforms w' rest
      | none => none

/-- Concrete container of the specification scenario:
`neighbors={0:[1],1:[0,2],2:[1]}`. -/
def nbrs6 : List (Nat × List Nat) := [(0, [1]), (1, [0, 2]), (2, [1])]

/-- Concrete weights of the specification scenario:
`weights={0:[1],1:[1,1],2:[1]}`. -/
def wts6 : List (Nat × List Q) := [(0, [1]), (1, [1, 1]), (2, [1])]

/-! ## Specification-level definitions -/

/-- Weight of the directed edge `(i, j)` as recorded by the container:
the weight aligned with the first occurrence of `j` in the neighbor
list of `i`, and `0` when the edge is absent (the missing-reciprocal
convention of the specification). -/
def w_of (neighbors : List (Nat × List Nat)) (weights : List (Nat × List Q))
    (i j : Nat) : Q :=
  match alookup i neighbors, alookup i weights with
  | some ni, some wi => if j ∈ ni then (aget wi (aindex j ni)).getD 0 else 0
  | _, _ => 0

/-- Specification formula for `s1`: half of the sum, over all directed
edges `(i, j)` actually stored, of `(w_ij + w_ji) ** 2`, a missing
reciprocal weight counting as `0`. -/
def specS1 (neighbors : List (Nat × List Nat)) (weights : List (Nat × List Q)) : Q :=
  qdivU ((neighbors.map (fun p =>
    (p.2.map (fun j =>
      let x := w_of neighbors weights p.1 j + w_of neighbors weights j p.1
      x * x)).sum)).sum) (2 : Q)

/-- Specification description of `asymmetry(nonzero)`: one record per
offending directed edge, `((i,j), ())` when `j` does not list `i` as a
neighbor, `((i,j), (j,i))` when the reciprocal exists, `nonzero` is
false and the two weights differ; entries follow the iteration order
over ids and, within an id, the stored neighbor-list order. -/
def asymmetrySpec (neighbors : List (Nat × List Nat)) (weights : List (Nat × List Q))
    (nonzero : Bool) : List Asym :=
  (neighbors.map (fun p =>
    (p.2.zip ((alookup p.1 weights).getD [])).filterMap (fun q =>
      match alookup q.1 neighbors with
      | none => some ((p.1, q.1), none)
      | some nj =>
          if p.1 ∈ nj then
            if nonzero then none
            else if q.2 ≠ w_of neighbors weights q.1 p.1 then
              some ((p.1, q.1), some (q.1, p.1))
            else none
          else some ((p.1, q.1), none)))).flatten

/-- Data model invariants of a well formed container, as stated in the
specification: the weights mapping has the same keys as the neighbors
mapping, ids are unique, every weight row is aligned with its neighbor
row, every listed neighbor is a known id, the iteration order is a
permutation of the ids, and the container is nonempty. -/
abbrev WF (neighbors : List (Nat × List Nat)) (weights : List (Nat × List Q))
    (idOrder : List Nat) : Prop :=
  assocKeys weights = assocKeys neighbors ∧
  (assocKeys neighbors).Nodup ∧
  (∀ p ∈ neighbors, (alookup p.1 weights).map List.length = some p.2.length) ∧
  (∀ p ∈ neighbors, ∀ j ∈ p.2, j ∈ assocKeys neighbors) ∧
  idOrder.Perm (assocKeys neighbors) ∧
  neighbors ≠ []

/-- Neighbor count of an id, read off the neighbors mapping. -/
def cardOf (neighbors : List (Nat × List Nat)) (i : Nat) : Nat :=
  ((alookup i neighbors).getD []).length

/-- Contribution of the row of id `i` to the `s1` accumulator. -/
def rowS1 (neighbors : List (Nat × List Nat)) (weights : List (Nat × List Q))
    (i : Nat) : Q :=
  (((alookup i neighbors).getD []).map (fun j =>
    let x := w_of neighbors weights i j + w_of neighbors weights j i
    x * x)).sum

/-- The characteristics attributes of a container state, bundled. -/
def extractChars (w : W) : Chars :=
  { s0 := w.s0, s1 := w.s1, s2 := w.s2, cardinalities := w.cardinalities,
    max_neighbors := w.max_neighbors, min_neighbors := w.min_neighbors,
    sd := w.sd, mean_neighbors := w.mean_neighbors, n := w.n,
    pct_nonzero := w.pct_nonzero, nonzero := w.nonzero,
    asymmetric := w.asymmetric, islands := w.islands, histogram := w.histogram }

/-! ## Concrete containers used by witnesses and counterexamples -/

/-- The container of the specification scenario, constructed. -/
def w6 : W := (W.init nbrs6 (some wts6) none).getD default

/-- The scenario container after a first `V` transform. -/
def w6v : W := ((W.set_transform w6 "V").getD default).1

/-- The scenario container after a second `V` transform. -/
def w6vv : W := ((W.set_transform w6v "V").getD default).1

/-- The scenario container after the transform chain `B`, `R`, `D`, `V`. -/
def w6c : W := (applyTransforms w6 ["B", "R", "D", "V"]).getD default

/-- Construction input with a neighbor/weight length mismatch at id 0:
one neighbor but two weights. -/
def nbrs9 : List (Nat × List Nat) := [(0, [1]), (1, [0])]

/-- Weights with an extra entry in the row of id 0. -/
def wts9 : List (Nat × List Q) := [(0, [1, 5]), (1, [1])]

/-- Container with an island (id 2 has no neighbors). -/
def nbrs10 : List (Nat × List Nat) := [(0, [1]), (1, [0]), (2, [])]

/-- Weights of the island container. -/
def wts10 : List (Nat × List Q) := [(0, [⟨2, 1⟩]), (1, [⟨3, 1⟩]), (2, [])]

/-- The island container, constructed. -/
def w10 : W := (W.init nbrs10 (some wts10) none).getD default

/-- The asymmetric container of the source docstring:
`{0:[1,2,3], 1:[1,2,3], 2:[0,1], 3:[0,1]}`. -/
def nbrs7 : List (Nat × List Nat) := [(0, [1, 2, 3]), (1, [1, 2, 3]), (2, [0, 1]), (3, [0, 1])]

/-- Unit weights for the asymmetric container. -/
def wts7 : List (Nat × List Q) := [(0, [1, 1, 1]), (1, [1, 1, 1]), (2, [1, 1]), (3, [1, 1])]

/-- A two-id container with a non-reciprocated edge. -/
def nbrs5 : List (Nat × List Nat) := [(0, [1]), (1, [])]

/-- Weights of the non-reciprocated container. -/
def wts5 : List (Nat × List Q) := [(0, [1]), (1, [])]

/-- Characteristics of the non-reciprocated container. -/
def chars5 : Chars := (characteristicsOf nbrs5 wts5 [0, 1]).getD default

/-- The asymmetric docstring container, constructed. -/
def w7 : W := (W.init nbrs7 (some wts7) none).getD default

/-! ## Basic lemmas about `Q` and the container helpers -/

theorem Q.add_n (a b : Q) : (a + b).n = a.n * b.d + b.n * a.d := rfl

theorem Q.add_d (a b : Q) : (a + b).d = a.d * b.d := rfl

theorem Q.mul_n (a b : Q) : (a * b).n = a.n * b.n := rfl

theorem Q.mul_d (a b : Q) : (a * b).d = a.d * b.d := rfl

theorem Q.one_n : (1 : Q).n = 1 := rfl

theorem Q.one_d : (1 : Q).d = 1 := rfl

theorem alookup_mem {α β : Type} [DecidableEq α] :
    ∀ {l : List (α × β)} {k : α} {v : β}, alookup k l = some v → (k, v) ∈ l := by
  intro l
  induction l with
  | nil => intro k v h; simp [alookup] at h
  | cons p rest ih =>
      intro k v h
      rw [alookup] at h
      by_cases hp : p.1 = k
      · rw [if_pos hp] at h
        injection h with h
        subst h; subst hp
        exact List.mem_cons_self _ _
      · rw [if_neg hp] at h
        exact List.mem_cons_of_mem _ (ih h)

theorem mem_alookup {α β : Type} [DecidableEq α] :
    ∀ {l : List (α × β)}, (assocKeys l).Nodup →
      ∀ {k : α} {v : β}, (k, v) ∈ l → alookup k l = some v := by
  intro l
  induction l with
  | nil => intro _ k v h; simp at h
  | cons p rest ih =>
      intro hnd k v h
      rw [assocKeys, List.map_cons, List.nodup_cons] at hnd
      rcases List.mem_cons.mp h with h1 | h1
      · rw [alookup, ← h1, if_pos rfl]
      · have hk : k ∈ assocKeys rest := List.mem_map_of_mem Prod.fst h1
        have hne : p.1 ≠ k := by
          intro he; exact hnd.1 (he ▸ hk)
        rw [alookup, if_neg hne]
        exact ih hnd.2 h1

theorem alookup_isSome_iff {α β : Type} [DecidableEq α] :
    ∀ (l : List (α × β)) (k : α), (alookup k l).isSome = true ↔ k ∈ assocKeys l := by
  intro l
  induction l with
  | nil => intro k; simp [alookup, assocKeys]
  | cons p rest ih =>
      intro k
      rw [alookup, assocKeys, List.map_cons]
      by_cases hp : p.1 = k
      · simp [hp]
      · simp only [if_neg hp, List.mem_cons, ih]
        constructor
        · intro h; exact Or.inr h
        · rintro (h | h)
          · exact absurd h.symm hp
          · exact h

theorem alookup_eq_none {α β : Type} [DecidableEq α] (l : List (α × β)) (k : α) :
    alookup k l = none ↔ k ∉ assocKeys l := by
  rw [← alookup_isSome_iff l k]
  cases alookup k l <;> simp

theorem alookup_assocSet_self {α β : Type} [DecidableEq α] (k : α) (v : β) :
    ∀ l : List (α × β), alookup k (assocSet k v l) = some v := by
  intro l
  induction l with
  | nil => simp [assocSet, alookup]
  | cons p rest ih =>
      rw [assocSet]
      by_cases hp : p.1 = k
      · rw [if_pos hp, alookup, if_pos rfl]
      · rw [if_neg hp, alookup, if_neg hp]; exact ih

theorem alookup_assocSet_ne {α β : Type} [DecidableEq α] {k k' : α} (h : k' ≠ k)
    (v : β) : ∀ l : List (α × β), alookup k (assocSet k' v l) = alookup k l := by
  intro l
  induction l with
  | nil => simp [assocSet, alookup, h]
  | cons p rest ih =>
      by_cases hp : p.1 = k'
      · have h1 : assocSet k' v (p :: rest) = (k', v) :: rest := by
          rw [assocSet, if_pos hp]
        rw [h1, alookup, if_neg h, alookup, hp, if_neg h]
      · have h1 : assocSet k' v (p :: rest) = p :: assocSet k' v rest := by
          rw [assocSet, if_neg hp]
        rw [h1, alookup, alookup]
        by_cases hk : p.1 = k
        · rw [if_pos hk, if_pos hk]
        · rw [if_neg hk, if_neg hk]; exact ih

theorem assocSet_fresh {α β : Type} [DecidableEq α] :
    ∀ {l : List (α × β)} {k : α}, alookup k l = none → ∀ v : β,
      assocSet k v l = l ++ [(k, v)] := by
  intro l
  induction l with
  | nil => intro k _ v; simp [assocSet]
  | cons p rest ih =>
      intro k h v
      rw [alookup] at h
      by_cases hp : p.1 = k
      · rw [if_pos hp] at h; exact absurd h (by simp)
      · rw [if_neg hp] at h
        rw [assocSet, if_neg hp, List.cons_append, ih h]

theorem assocKeys_append {α β : Type} (l l' : List (α × β)) :
    assocKeys (l ++ l') = assocKeys l ++ assocKeys l' := by
  simp [assocKeys]

theorem assocKeys_assocSet {α β : Type} [DecidableEq α] (k : α) (v : β) :
    ∀ l : List (α × β), assocKeys (assocSet k v l) =
      if k ∈ assocKeys l then assocKeys l else assocKeys l ++ [k] := by
  intro l
  induction l with
  | nil => simp [assocSet, assocKeys]
  | cons p rest ih =>
      simp only [assocKeys, List.map_cons] at ih ⊢
      rw [assocSet]
      by_cases hp : p.1 = k
      · rw [if_pos hp, List.map_cons]
        simp [hp]
      · rw [if_neg hp, List.map_cons, ih]
        have hne : ¬k = p.1 := fun he => hp he.symm
        by_cases hk : k ∈ List.map Prod.fst rest
        · simp [List.mem_cons, hk]
        · simp [List.mem_cons, hk, hne, List.cons_append]

theorem assocKeys_assocIncr {α : Type} [DecidableEq α] (k : α) (v : Q) :
    ∀ l : List (α × Q), assocKeys (assocIncr k v l) = assocKeys l := by
  intro l
  induction l with
  | nil => simp [assocIncr]
  | cons p rest ih =>
      simp only [assocKeys, List.map_cons] at ih ⊢
      rw [assocIncr]
      by_cases hp : p.1 = k
      · rw [if_pos hp, List.map_cons]
      · rw [if_neg hp, List.map_cons, ih]

theorem assocKeys_map_snd {α β γ : Type} (l : List (α × β)) (f : α × β → γ) :
    assocKeys (l.map (fun p => (p.1, f p))) = assocKeys l := by
  simp [assocKeys, List.map_map]

theorem aget_isSome_of_lt {α : Type} :
    ∀ (l : List α) (i : Nat), i < l.length → (aget l i).isSome = true := by
  intro l
  induction l with
  | nil => intro i h; simp at h
  | cons x rest ih =>
      intro i h
      cases i with
      | zero => simp [aget]
      | succ j => exact ih j (Nat.lt_of_succ_lt_succ h)

theorem aindex_lt_of_mem {α : Type} [DecidableEq α] :
    ∀ {l : List α} {x : α}, x ∈ l → aindex x l < l.length := by
  intro l
  induction l with
  | nil => intro x h; simp at h
  | cons y rest ih =>
      intro x h
      rw [aindex]
      by_cases hy : y = x
      · rw [if_pos hy]; exact Nat.succ_pos _
      · rw [if_neg hy]
        have hx : x ∈ rest := by
          rcases List.mem_cons.mp h with h1 | h1
          · exact absurd h1.symm hy
          · exact h1
        exact Nat.succ_lt_succ (ih hx)

theorem foldl_max_ge_init : ∀ (l : List Nat) (a : Nat), a ≤ l.foldl Nat.max a := by
  intro l
  induction l with
  | nil => intro a; simp
  | cons x rest ih =>
      intro a
      calc a ≤ Nat.max a x := Nat.le_max_left _ _
        _ ≤ rest.foldl Nat.max (Nat.max a x) := ih _

theorem foldl_max_ge_mem :
    ∀ (l : List Nat) (a : Nat) {v : Nat}, v ∈ l → v ≤ l.foldl Nat.max a := by
  intro l
  induction l with
  | nil => intro a v h; simp at h
  | cons x rest ih =>
      intro a v h
      rcases List.mem_cons.mp h with h1 | h1
      · subst h1
        calc v ≤ Nat.max a v := Nat.le_max_right _ _
          _ ≤ rest.foldl Nat.max (Nat.max a v) := foldl_max_ge_init _ _
      · exact ih _ h1

theorem foldl_min_le_init : ∀ (l : List Nat) (a : Nat), l.foldl Nat.min a ≤ a := by
  intro l
  induction l with
  | nil => intro a; simp
  | cons x rest ih =>
      intro a
      calc rest.foldl Nat.min (Nat.min a x) ≤ Nat.min a x := ih _
        _ ≤ a := Nat.min_le_left _ _

theorem foldl_min_le_mem :
    ∀ (l : List Nat) (a : Nat) {v : Nat}, v ∈ l → l.foldl Nat.min a ≤ v := by
  intro l
  induction l with
  | nil => intro a v h; simp at h
  | cons x rest ih =>
      intro a v h
      rcases List.mem_cons.mp h with h1 | h1
      · subst h1
        calc rest.foldl Nat.min (Nat.min a v) ≤ Nat.min a v := foldl_min_le_init _ _
          _ ≤ v := Nat.min_le_right _ _
      · exact ih _ h1

theorem le_listMax {l : List Nat} {m : Nat} (h : listMax l = some m) :
    ∀ v ∈ l, v ≤ m := by
  cases l with
  | nil => simp [listMax] at h
  | cons x rest =>
      rw [listMax, Option.some.injEq] at h
      intro v hv
      subst h
      rcases List.mem_cons.mp hv with h1 | h1
      · subst h1; exact foldl_max_ge_init _ _
      · exact foldl_max_ge_mem _ _ h1

theorem listMin_le {l : List Nat} {m : Nat} (h : listMin l = some m) :
    ∀ v ∈ l, m ≤ v := by
  cases l with
  | nil => simp [listMin] at h
  | cons x rest =>
      rw [listMin, Option.some.injEq] at h
      intro v hv
      subst h
      rcases List.mem_cons.mp hv with h1 | h1
      · subst h1; exact foldl_min_le_init _ _
      · exact foldl_min_le_mem _ _ h1

theorem listMax_isSome {l : List Nat} (h : l ≠ []) : (listMax l).isSome = true := by
  cases l with
  | nil => exact absurd rfl h
  | cons x rest => simp [listMax]

theorem listMin_isSome {l : List Nat} (h : l ≠ []) : (listMin l).isSome = true := by
  cases l with
  | nil => exact absurd rfl h
  | cons x rest => simp [listMin]

theorem listSetEq_iff {α : Type} [DecidableEq α] (a b : List α) :
    listSetEq a b = true ↔ (∀ x, x ∈ a ↔ x ∈ b) := by
  rw [listSetEq, Bool.and_eq_true, List.all_eq_true, List.all_eq_true]
  constructor
  · rintro ⟨h1, h2⟩ x
    constructor
    · intro hx; exact of_decide_eq_true (h1 x hx)
    · intro hx; exact of_decide_eq_true (h2 x hx)
  · intro h
    constructor
    · intro x hx; exact decide_eq_true ((h x).mp hx)
    · intro x hx; exact decide_eq_true ((h x).mpr hx)

theorem sum_map_add {α : Type} (l : List α) (f g : α → Nat) :
    (l.map (fun x => f x + g x)).sum = (l.map f).sum + (l.map g).sum := by
  induction l with
  | nil => simp
  | cons x rest ih => simp [ih]; omega

theorem sum_ite_one {cs : List Nat} (hnd : cs.Nodup) {v : Nat} (hv : v ∈ cs) :
    (cs.map (fun c => if v = c then 1 else 0)).sum = 1 := by
  induction cs with
  | nil => simp at hv
  | cons c rest ih =>
      rw [List.nodup_cons] at hnd
      rcases List.mem_cons.mp hv with h1 | h1
      · subst h1
        have : (rest.map (fun c => if v = c then 1 else 0)).sum = 0 := by
          apply List.sum_eq_zero
          intro x hx
          rcases List.mem_map.mp hx with ⟨c', hc', he⟩
          have : v ≠ c' := fun hv2 => hnd.1 (hv2 ▸ hc')
          simp [← he, this]
        simp [this]
      · have hne : v ≠ c := by
          intro he; exact hnd.1 (he ▸ h1)
        simp [hne, ih hnd.2 h1]

theorem sum_counts (vals : List Nat) :
    ∀ (cs : List Nat), cs.Nodup → (∀ v ∈ vals, v ∈ cs) →
      (cs.map (fun c => vals.count c)).sum = vals.length := by
  induction vals with
  | nil => intro cs _ _; simp [List.count_nil]
  | cons v vs ih =>
      intro cs hnd hin
      have hstep : ∀ c : Nat, (v :: vs).count c = vs.count c + (if c = v then 1 else 0) := by
        intro c
        by_cases hc : c = v
        · subst hc; simp [List.count_cons]
        · simp [List.count_cons, hc]
      calc (cs.map (fun c => (v :: vs).count c)).sum
          = (cs.map (fun c => vs.count c + (if c = v then 1 else 0))).sum := by
            congr 1; exact List.map_congr_left (fun c _ => hstep c)
        _ = (cs.map (fun c => vs.count c)).sum + (cs.map (fun c => if c = v then 1 else 0)).sum :=
            sum_map_add _ _ _
        _ = vs.length + 1 := by
            rw [ih cs hnd (fun x hx => hin x (List.mem_cons_of_mem _ hx))]
            congr 1
            have : (cs.map (fun c => if c = v then 1 else 0)) = (cs.map (fun c => if v = c then 1 else 0)) := by
              apply List.map_congr_left
              intro c _
              by_cases hc : c = v
              · simp [hc]
              · have hcv : ¬v = c := fun he => hc he.symm
                simp [hc, hcv]
            rw [this]
            exact sum_ite_one hnd (hin v (List.mem_cons_self _ _))
        _ = (v :: vs).length := by simp

/-! ## Characterization of the characteristics loops -/

theorem sumUpdate_cardinalities (i : Nat) (wji wij : Q) (a : Accum) :
    (sumUpdate i wji wij a).cardinalities = a.cardinalities := by
  rw [sumUpdate]
  split <;> rfl

theorem sumUpdate_keys_sync (i : Nat) (wji wij : Q) (a : Accum)
    (h : assocKeys a.colSum = assocKeys a.rowSum) :
    assocKeys (sumUpdate i wji wij a).colSum = assocKeys (sumUpdate i wji wij a).rowSum := by
  rw [sumUpdate]
  split
  · show assocKeys (assocIncr i wji (assocSet i (0 : Q) a.colSum)) =
      assocKeys (assocIncr i wij (assocSet i (0 : Q) a.rowSum))
    rw [assocKeys_assocIncr, assocKeys_assocIncr, assocKeys_assocSet, assocKeys_assocSet, h]
  · show assocKeys (assocIncr i wji a.colSum) = assocKeys (assocIncr i wij a.rowSum)
    rw [assocKeys_assocIncr, assocKeys_assocIncr, h]

theorem w_of_eq {neighbors : List (Nat × List Nat)} {weights : List (Nat × List Q)}
    {i : Nat} {ni : List Nat} {wi : List Q}
    (hni : alookup i neighbors = some ni) (hwi : alookup i weights = some wi) (j : Nat) :
    w_of neighbors weights i j =
      if j ∈ ni then (aget wi (aindex j ni)).getD 0 else 0 := by
  rw [w_of, hni, hwi]

theorem edgeLoop_cons (neighbors : List (Nat × List Nat)) (weights : List (Nat × List Q))
    (i : Nat) (ni : List Nat) (wi : List Q) (j : Nat) (rest : List Nat) (a : Accum) :
    edgeLoop neighbors weights i ni wi (j :: rest) a =
      (alookup j weights).bind (fun w_j =>
      (alookup j neighbors).bind (fun neighbors_j =>
      (if i ∈ neighbors_j then aget w_j (aindex i neighbors_j) else some (0 : Q)).bind (fun wji =>
      (if j ∈ ni then aget wi (aindex j ni) else some (0 : Q)).bind (fun wij =>
      edgeLoop neighbors weights i ni wi rest
        { sumUpdate i wji wij a with
          s1 := a.s1 + (wij + wji) * (wij + wji), s0 := a.s0 + wij,
          nonzero := a.nonzero + 1 })))) := rfl

theorem idLoop_cons (neighbors : List (Nat × List Nat)) (weights : List (Nat × List Q))
    (i : Nat) (rest : List Nat) (a : Accum) :
    idLoop neighbors weights (i :: rest) a =
      (alookup i neighbors).bind (fun neighbors_i =>
      (alookup i weights).bind (fun w_i =>
      (edgeLoop neighbors weights i neighbors_i w_i neighbors_i
        { a with cardinalities := assocSet i neighbors_i.length a.cardinalities }).bind
        (fun a2 => idLoop neighbors weights rest a2))) := rfl

theorem edgeLoop_eq (neighbors : List (Nat × List Nat)) (weights : List (Nat × List Q))
    (i : Nat) (ni : List Nat) (wi : List Q)
    (hni : alookup i neighbors = some ni) (hwi : alookup i weights = some wi) :
    ∀ (js : List Nat) (a a' : Accum),
      edgeLoop neighbors weights i ni wi js a = some a' →
      a'.cardinalities = a.cardinalities ∧
      a'.nonzero = a.nonzero + js.length ∧
      (assocKeys a.colSum = assocKeys a.rowSum →
        assocKeys a'.colSum = assocKeys a'.rowSum) ∧
      a'.s1 = a.s1 + (js.map (fun j =>
        let x := w_of neighbors weights i j + w_of neighbors weights j i
        x * x)).sum := by
  intro js
  induction js with
  | nil =>
      intro a a' h
      rw [edgeLoop] at h
      injection h with h
      subst h
      refine ⟨rfl, rfl, fun h => h, by simp⟩
  | cons j rest ih =>
      intro a a' h
      rw [edgeLoop_cons] at h
      simp only [Option.bind_eq_some] at h
      obtain ⟨w_j, hwj, neighbors_j, hnj, wji, hwji, wij, hwij, hrec⟩ := h
      obtain ⟨hc, hn, hsync, hs⟩ := ih _ _ hrec
      have hwij_val : wij = w_of neighbors weights i j := by
        rw [w_of_eq hni hwi j]
        by_cases hm : j ∈ ni
        · rw [if_pos hm] at hwij ⊢
          rw [hwij]
          rfl
        · rw [if_neg hm] at hwij ⊢
          injection hwij with hwij
          exact hwij.symm
      have hwji_val : wji = w_of neighbors weights j i := by
        rw [w_of_eq hnj hwj i]
        by_cases hm : i ∈ neighbors_j
        · rw [if_pos hm] at hwji ⊢
          rw [hwji]
          rfl
        · rw [if_neg hm] at hwji ⊢
          injection hwji with hwji
          exact hwji.symm
      refine ⟨?_, ?_, ?_, ?_⟩
      · rw [hc]
        show (sumUpdate i wji wij a).cardinalities = a.cardinalities
        exact sumUpdate_cardinalities _ _ _ _
      · rw [hn]
        show a.nonzero + 1 + rest.length = a.nonzero + (j :: rest).length
        simp [List.length_cons]
        omega
      · intro hsync0
        apply hsync
        show assocKeys (sumUpdate i wji wij a).colSum =
          assocKeys (sumUpdate i wji wij a).rowSum
        exact sumUpdate_keys_sync _ _ _ _ hsync0
      · rw [hs]
        show a.s1 + (wij + wji) * (wij + wji) + _ = _
        rw [List.map_cons, List.sum_cons, hwij_val, hwji_val, add_assoc]

theorem idLoop_eq (neighbors : List (Nat × List Nat)) (weights : List (Nat × List Q)) :
    ∀ (ids : List Nat) (a a' : Accum),
      idLoop neighbors weights ids a = some a' → ids.Nodup →
      (∀ i0 ∈ ids, alookup i0 a.cardinalities = none) →
      a'.cardinalities = a.cardinalities ++ ids.map (fun i0 => (i0, cardOf neighbors i0)) ∧
      a'.nonzero = a.nonzero + (ids.map (cardOf neighbors)).sum ∧
      (assocKeys a.colSum = assocKeys a.rowSum →
        assocKeys a'.colSum = assocKeys a'.rowSum) ∧
      a'.s1 = a.s1 + (ids.map (rowS1 neighbors weights)).sum := by
  intro ids
  induction ids with
  | nil =>
      intro a a' h _ _
      rw [idLoop] at h
      injection h with h
      subst h
      refine ⟨by simp, by simp, fun h => h, by simp⟩
  | cons i rest ih =>
      intro a a' h hnd hfresh
      rw [idLoop_cons] at h
      simp only [Option.bind_eq_some] at h
      obtain ⟨neighbors_i, hni, w_i, hwi, a2, hedge, hrec⟩ := h
      rw [List.nodup_cons] at hnd
      obtain ⟨hec, hen, hesync, hes⟩ :=
        edgeLoop_eq neighbors weights i neighbors_i w_i hni hwi _ _ _ hedge
      have hfresh2 : ∀ i0 ∈ rest, alookup i0 a2.cardinalities = none := by
        intro i0 hi0
        rw [hec]
        show alookup i0 (assocSet i neighbors_i.length a.cardinalities) = none
        have hne : i0 ≠ i := fun he => hnd.1 (he ▸ hi0)
        rw [alookup_assocSet_ne (fun he => hne he.symm)]
        exact hfresh i0 (List.mem_cons_of_mem _ hi0)
      obtain ⟨hc, hn, hsync, hs⟩ := ih _ _ hrec hnd.2 hfresh2
      have hcardOf : cardOf neighbors i = neighbors_i.length := by
        rw [cardOf, hni]
        rfl
      have hrowS1 : rowS1 neighbors weights i = (neighbors_i.map (fun j =>
          let x := w_of neighbors weights i j + w_of neighbors weights j i
          x * x)).sum := by
        rw [rowS1, hni]
        rfl
      refine ⟨?_, ?_, ?_, ?_⟩
      · rw [hc, hec]
        show assocSet i neighbors_i.length a.cardinalities ++ _ = _
        rw [assocSet_fresh (hfresh i (List.mem_cons_self _ _)), List.append_assoc,
          List.singleton_append, List.map_cons, hcardOf]
      · rw [hn, hen]
        show a.nonzero + neighbors_i.length + _ = _
        rw [List.map_cons, List.sum_cons, hcardOf]
        omega
      · intro hsync0
        apply hsync
        apply hesync
        exact hsync0
      · rw [hs, hes]
        show a.s1 + _ + _ = _
        rw [List.map_cons, List.sum_cons, hrowS1, add_assoc]

/-! ## Consequences of a successful characteristics computation -/

theorem characteristicsOf_eq (neighbors : List (Nat × List Nat))
    (weights : List (Nat × List Q)) (idOrder : List Nat) :
    characteristicsOf neighbors weights idOrder =
      (idLoop neighbors weights idOrder ⟨0, 0, [], [], [], 0⟩).bind (fun a =>
      (s2Terms a.rowSum a.colSum).bind (fun terms =>
      (listMax (a.cardinalities.map Prod.snd)).bind (fun mx =>
      (listMin (a.cardinalities.map Prod.snd)).bind (fun mn =>
      (divChecked (Q.ofNat (a.cardinalities.map Prod.snd).sum)
          (Q.ofNat weights.length * (1 : Q))).bind (fun mean =>
      (divChecked (Q.ofNat a.nonzero)
          (((1 : Q) * Q.ofNat weights.length) * Q.ofNat weights.length)).bind (fun pct =>
      (asymLoop neighbors weights true neighbors).bind (fun asyms =>
      some { s0 := a.s0, s1 := qdivU a.s1 (2 : Q), s2 := terms.sum,
             cardinalities := a.cardinalities,
             max_neighbors := mx, min_neighbors := mn,
             sd := stdQ (a.cardinalities.map Prod.snd),
             mean_neighbors := mean, n := weights.length, pct_nonzero := pct,
             nonzero := a.nonzero, asymmetric := !asyms.isEmpty,
             islands := (a.cardinalities.filter (fun p => p.2 == 0)).map Prod.fst,
             histogram := (List.range' mn (mx + 1 - mn)).map
               (fun c => (c, (a.cardinalities.map Prod.snd).count c)) }))))))) := rfl

theorem characteristicsOf_fields {neighbors : List (Nat × List Nat)}
    {weights : List (Nat × List Q)} {idOrder : List Nat} {c : Chars}
    (h : characteristicsOf neighbors weights idOrder = some c) :
    ∃ a mx mn,
      idLoop neighbors weights idOrder ⟨0, 0, [], [], [], 0⟩ = some a ∧
      listMax (a.cardinalities.map Prod.snd) = some mx ∧
      listMin (a.cardinalities.map Prod.snd) = some mn ∧
      c.cardinalities = a.cardinalities ∧
      c.nonzero = a.nonzero ∧
      c.s1 = qdivU a.s1 (2 : Q) ∧
      c.n = weights.length ∧
      c.max_neighbors = mx ∧ c.min_neighbors = mn ∧
      c.histogram = (List.range' mn (mx + 1 - mn)).map
        (fun v => (v, (a.cardinalities.map Prod.snd).count v)) := by
  rw [characteristicsOf_eq] at h
  simp only [Option.bind_eq_some] at h
  obtain ⟨a, ha, terms, hterms, mx, hmx, mn, hmn, mean, hmean, pct, hpct, asyms, hasyms, hc⟩ := h
  injection hc with hc
  refine ⟨a, mx, mn, ha, hmx, hmn, ?_, ?_, ?_, ?_, ?_, ?_, ?_⟩ <;> rw [← hc]

theorem characteristicsOf_consistent {neighbors : List (Nat × List Nat)}
    {weights : List (Nat × List Q)} {idOrder : List Nat} {c : Chars}
    (h : characteristicsOf neighbors weights idOrder = some c)
    (hnd : idOrder.Nodup) (hlen : weights.length = idOrder.length) :
    (c.cardinalities.map Prod.snd).sum = c.nonzero ∧
    (c.histogram.map Prod.snd).sum = c.n := by
  obtain ⟨a, mx, mn, ha, hmx, hmn, hcc, hcn, _, hn, _, _, hch⟩ := characteristicsOf_fields h
  obtain ⟨hac, han, _, _⟩ := idLoop_eq neighbors weights idOrder _ _ ha hnd
    (by intro i0 _; rfl)
  have hvals : a.cardinalities.map Prod.snd = idOrder.map (cardOf neighbors) := by
    rw [hac]
    simp [List.map_map]
  constructor
  · rw [hcc, hcn, hvals, han]
    show _ = Accum.nonzero ⟨0, 0, [], [], [], 0⟩ + _
    simp
  · rw [hch, hn]
    have hb : ∀ v ∈ a.cardinalities.map Prod.snd, mn ≤ v ∧ v ≤ mx :=
      fun v hv => ⟨listMin_le hmn v hv, le_listMax hmx v hv⟩
    have hrange : ∀ v ∈ a.cardinalities.map Prod.snd, v ∈ List.range' mn (mx + 1 - mn) := by
      intro v hv
      rw [List.mem_range'_1]
      obtain ⟨h1, h2⟩ := hb v hv
      omega
    have hndr : (List.range' mn (mx + 1 - mn)).Nodup := by
      rw [List.range'_eq_map_range]
      exact (List.nodup_range _).map (fun x y he => by omega)
    have : ((List.range' mn (mx + 1 - mn)).map
        (fun v => (v, (a.cardinalities.map Prod.snd).count v))).map Prod.snd =
        (List.range' mn (mx + 1 - mn)).map (fun v => (a.cardinalities.map Prod.snd).count v) := by
      rw [List.map_map]
      rfl
    rw [this, sum_counts _ _ hndr hrange, hvals, List.length_map, hlen]

theorem characteristicsOf_s1 {neighbors : List (Nat × List Nat)}
    {weights : List (Nat × List Q)} {idOrder : List Nat} {c : Chars}
    (h : characteristicsOf neighbors weights idOrder = some c)
    (hnd : (assocKeys neighbors).Nodup) (hperm : idOrder.Perm (assocKeys neighbors)) :
    c.s1 = specS1 neighbors weights := by
  obtain ⟨a, mx, mn, ha, _, _, _, _, hs1, _, _, _, _⟩ := characteristicsOf_fields h
  have hndo : idOrder.Nodup := hperm.nodup_iff.mpr hnd
  obtain ⟨_, _, _, has1⟩ := idLoop_eq neighbors weights idOrder _ _ ha hndo
    (by intro i0 _; rfl)
  rw [hs1, has1]
  show qdivU (Accum.s1 ⟨0, 0, [], [], [], 0⟩ + _) _ = _
  rw [specS1]
  have h0 : Accum.s1 ⟨0, 0, [], [], [], 0⟩ = (0 : Q) := rfl
  rw [h0, zero_add]
  congr 1
  calc (idOrder.map (rowS1 neighbors weights)).sum
      = ((assocKeys neighbors).map (rowS1 neighbors weights)).sum :=
        ((hperm.map (rowS1 neighbors weights)).sum_eq)
    _ = (neighbors.map (fun p => rowS1 neighbors weights p.1)).sum := by
        rw [assocKeys, List.map_map]
        rfl
    _ = (neighbors.map (fun p =>
          (p.2.map (fun j =>
            let x := w_of neighbors weights p.1 j + w_of neighbors weights j p.1
            x * x)).sum)).sum := by
        congr 1
        apply List.map_congr_left
        intro p hp
        obtain ⟨i, ns⟩ := p
        rw [rowS1, mem_alookup hnd hp]
        rfl

/-! ## Shape of the constructor and of the transform setter -/

theorem applyChars_neighbors (w : W) (c : Chars) :
    (applyChars w c).neighbors = w.neighbors := rfl

theorem applyChars_weights (w : W) (c : Chars) :
    (applyChars w c).weights = w.weights := rfl

theorem applyChars_id_order (w : W) (c : Chars) :
    (applyChars w c)._id_order = w._id_order := rfl

theorem applyChars_transformations (w : W) (c : Chars) :
    (applyChars w c).transformations = w.transformations := rfl

theorem extractChars_applyChars (w : W) (c : Chars) :
    extractChars (applyChars w c) = c := rfl

theorem init_shape {neighbors : List (Nat × List Nat)}
    {weights? : Option (List (Nat × List Q))} {id_order? : Option (List Nat)} {w0 : W}
    (h : W.init neighbors weights? id_order? = some w0) :
    w0.neighbors = neighbors ∧
    w0.transformations = [("O", w0.weights)] ∧
    characteristicsOf neighbors w0.weights w0._id_order = some (extractChars w0) := by
  rw [W.init] at h
  simp only [Option.map_eq_some'] at h
  obtain ⟨w1, h1, h2⟩ := h
  rw [W._characteristics] at h1
  simp only [Option.map_eq_some'] at h1
  obtain ⟨c, hc, hc2⟩ := h1
  subst hc2
  subst h2
  exact ⟨rfl, rfl, hc⟩

theorem transformR_eq (w : W) :
    transformR w =
      (rowsTransformR w.weights).bind (fun weights =>
      W._characteristics { w with
        transformations := assocSet "R" weights w.transformations,
        weights := weights }) := rfl

theorem transformR_shape {w w' : W} (h : transformR w = some w') :
    ∃ nw c, rowsTransformR w.weights = some nw ∧
      characteristicsOf w.neighbors nw w._id_order = some c ∧
      w' = applyChars { w with transformations := assocSet "R" nw w.transformations,
                               weights := nw } c := by
  rw [transformR_eq] at h
  simp only [Option.bind_eq_some] at h
  obtain ⟨nw, hnw, h⟩ := h
  rw [W._characteristics] at h
  simp only [Option.map_eq_some'] at h
  obtain ⟨c, hc, h2⟩ := h
  exact ⟨nw, c, hnw, hc, h2.symm⟩

theorem transformB_shape {w w' : W} (h : transformB w = some w') :
    ∃ c, characteristicsOf w.neighbors
        (w.weights.map (fun p => (p.1, p.2.map (fun _ => (1 : Q))))) w._id_order = some c ∧
      w' = applyChars { w with
        transformations := assocSet "B"
          (w.weights.map (fun p => (p.1, p.2.map (fun _ => (1 : Q))))) w.transformations,
        weights := w.weights.map (fun p => (p.1, p.2.map (fun _ => (1 : Q)))) } c := by
  rw [transformB, W._characteristics] at h
  simp only [Option.map_eq_some'] at h
  obtain ⟨c, hc, h2⟩ := h
  exact ⟨c, hc, h2.symm⟩

theorem transformD_eq (w : W) :
    transformD w =
      (W._characteristics w).bind (fun w2 =>
      (divChecked (1 : Q) w2.s0).bind (fun ws =>
      W._characteristics { w2 with
        transformations := assocSet "D"
          (w2.weights.map (fun p => (p.1, p.2.map (fun wij => wij * ws)))) w2.transformations,
        weights := w2.weights.map (fun p => (p.1, p.2.map (fun wij => wij * ws))) })) := rfl

theorem transformV_eq (w : W) :
    transformV w =
      (rowsTransformV w.weights).bind (fun qs =>
      (divChecked (Q.ofNat w.n) ((qs.map (fun p => p.2.sum)).sum)).bind (fun nQ =>
      W._characteristics { w with
        weights := qs.map (fun p => (p.1, p.2.map (fun s => s * nQ))) })) := rfl

theorem transformD_shape {w w' : W} (h : transformD w = some w') :
    ∃ c1 ws c2, characteristicsOf w.neighbors w.weights w._id_order = some c1 ∧
      divChecked (1 : Q) c1.s0 = some ws ∧
      characteristicsOf w.neighbors
        (w.weights.map (fun p => (p.1, p.2.map (fun wij => wij * ws)))) w._id_order = some c2 ∧
      w' = applyChars { applyChars w c1 with
        transformations := assocSet "D"
          (w.weights.map (fun p => (p.1, p.2.map (fun wij => wij * ws)))) w.transformations,
        weights := w.weights.map (fun p => (p.1, p.2.map (fun wij => wij * ws))) } c2 := by
  rw [transformD_eq] at h
  simp only [Option.bind_eq_some] at h
  obtain ⟨w2, hw2, ws, hws, h⟩ := h
  rw [W._characteristics] at hw2
  simp only [Option.map_eq_some'] at hw2
  obtain ⟨c1, hc1, hw2⟩ := hw2
  subst hw2
  rw [W._characteristics] at h
  simp only [Option.map_eq_some'] at h
  obtain ⟨c2, hc2, h2⟩ := h
  exact ⟨c1, ws, c2, hc1, hws, hc2, h2.symm⟩

theorem transformV_shape {w w' : W} (h : transformV w = some w') :
    ∃ qs nQ c, rowsTransformV w.weights = some qs ∧
      divChecked (Q.ofNat w.n) ((qs.map (fun p => p.2.sum)).sum) = some nQ ∧
      characteristicsOf w.neighbors
        (qs.map (fun p => (p.1, p.2.map (fun s => s * nQ)))) w._id_order = some c ∧
      w' = applyChars { w with
        weights := qs.map (fun p => (p.1, p.2.map (fun s => s * nQ))) } c := by
  rw [transformV_eq] at h
  simp only [Option.bind_eq_some] at h
  obtain ⟨qs, hqs, nQ, hnQ, h⟩ := h
  rw [W._characteristics] at h
  simp only [Option.map_eq_some'] at h
  obtain ⟨c, hc, h2⟩ := h
  exact ⟨qs, nQ, c, hqs, hnQ, hc, h2.symm⟩

theorem set_transform_shape {w : W} {t : String} {w' : W} {b : Bool}
    (h : W.set_transform w t = some (w', b)) :
    (∃ cached c, alookup (toUpperS t) w.transformations = some cached ∧
        characteristicsOf w.neighbors cached w._id_order = some c ∧
        w' = applyChars { w with _transform := some (toUpperS t), weights := cached } c ∧
        b = false) ∨
    (alookup (toUpperS t) w.transformations = none ∧
      ((toUpperS t = "R" ∧ transformR { w with _transform := some (toUpperS t) } = some w' ∧
          b = false) ∨
       (toUpperS t = "D" ∧ transformD { w with _transform := some (toUpperS t) } = some w' ∧
          b = false) ∨
       (toUpperS t = "B" ∧ transformB { w with _transform := some (toUpperS t) } = some w' ∧
          b = false) ∨
       (toUpperS t = "V" ∧ transformV { w with _transform := some (toUpperS t) } = some w' ∧
          b = false) ∨
       (toUpperS t ≠ "R" ∧ toUpperS t ≠ "D" ∧ toUpperS t ≠ "B" ∧ toUpperS t ≠ "V" ∧
        toUpperS t ≠ "O" ∧ w' = { w with _transform := some (toUpperS t) } ∧ b = true))) := by
  simp only [W.set_transform] at h
  split at h
  next cached heq =>
    rw [W._characteristics] at h
    simp only [Option.map_eq_some'] at h
    obtain ⟨w2, ⟨c, hc, hac⟩, hpair⟩ := h
    rw [Prod.mk.injEq] at hpair
    refine Or.inl ⟨cached, c, heq, hc, ?_, hpair.2.symm⟩
    rw [← hpair.1, ← hac]
  next heq =>
    refine Or.inr ⟨heq, ?_⟩
    split_ifs at h with h1 h2 h3 h4 h5
    · simp only [Option.map_eq_some'] at h
      obtain ⟨w2, hw2, hpair⟩ := h
      rw [Prod.mk.injEq] at hpair
      exact Or.inl ⟨h1, hpair.1 ▸ hw2, hpair.2.symm⟩
    · simp only [Option.map_eq_some'] at h
      obtain ⟨w2, hw2, hpair⟩ := h
      rw [Prod.mk.injEq] at hpair
      exact Or.inr (Or.inl ⟨h2, hpair.1 ▸ hw2, hpair.2.symm⟩)
    · simp only [Option.map_eq_some'] at h
      obtain ⟨w2, hw2, hpair⟩ := h
      rw [Prod.mk.injEq] at hpair
      exact Or.inr (Or.inr (Or.inl ⟨h3, hpair.1 ▸ hw2, hpair.2.symm⟩))
    · simp only [Option.map_eq_some'] at h
      obtain ⟨w2, hw2, hpair⟩ := h
      rw [Prod.mk.injEq] at hpair
      exact Or.inr (Or.inr (Or.inr (Or.inl ⟨h4, hpair.1 ▸ hw2, hpair.2.symm⟩)))
    · rw [heq] at h
      simp at h
    · injection h with h
      rw [Prod.mk.injEq] at h
      exact Or.inr (Or.inr (Or.inr (Or.inr
        ⟨h1, h2, h3, h4, h5, h.1.symm, h.2.symm⟩)))

theorem set_transform_preserves {w : W} {t : String} {w' : W} {b : Bool}
    (h : W.set_transform w t = some (w', b)) :
    w'.neighbors = w.neighbors ∧ w'._id_order = w._id_order ∧
    ∀ k, k ≠ toUpperS t → alookup k w'.transformations = alookup k w.transformations := by
  rcases set_transform_shape h with ⟨cached, c, _, _, hw, _⟩ | ⟨_, hcase⟩
  · subst hw
    exact ⟨rfl, rfl, fun k _ => rfl⟩
  · rcases hcase with ⟨hR, htr, _⟩ | ⟨hD, htr, _⟩ | ⟨hB, htr, _⟩ | ⟨hV, htr, _⟩ |
      ⟨_, _, _, _, _, hw, _⟩
    · obtain ⟨nw, c, _, _, hw⟩ := transformR_shape htr
      subst hw
      refine ⟨rfl, rfl, fun k hk => ?_⟩
      show alookup k (assocSet "R" nw w.transformations) = _
      rw [alookup_assocSet_ne (Ne.symm (hR ▸ hk))]
    · obtain ⟨c1, ws, c2, _, _, _, hw⟩ := transformD_shape htr
      subst hw
      refine ⟨rfl, rfl, fun k hk => ?_⟩
      show alookup k (assocSet "D" _ w.transformations) = _
      rw [alookup_assocSet_ne (Ne.symm (hD ▸ hk))]
    · obtain ⟨c, _, hw⟩ := transformB_shape htr
      subst hw
      refine ⟨rfl, rfl, fun k hk => ?_⟩
      show alookup k (assocSet "B" _ w.transformations) = _
      rw [alookup_assocSet_ne (Ne.symm (hB ▸ hk))]
    · obtain ⟨qs, nQ, c, _, _, _, hw⟩ := transformV_shape htr
      subst hw
      exact ⟨rfl, rfl, fun k _ => rfl⟩
    · subst hw
      exact ⟨rfl, rfl, fun k _ => rfl⟩

theorem set_transform_cached {w : W} {t : String} {cached : List (Nat × List Q)}
    (hl : alookup (toUpperS t) w.transformations = some cached) :
    W.set_transform w t = (characteristicsOf w.neighbors cached w._id_order).map
      (fun c => (applyChars { w with _transform := some (toUpperS t), weights := cached } c, false)) := by
  simp only [W.set_transform]
  split
  next cached' heq =>
    have heq' : alookup (toUpperS t) w.transformations = some cached' := heq
    rw [hl] at heq'
    injection heq' with heq'
    subst heq'
    rw [W._characteristics, Option.map_map]
    rfl
  next heq =>
    have heq' : alookup (toUpperS t) w.transformations = none := heq
    rw [hl] at heq'
    exact absurd heq' (by simp)

/-- C1: for every container constructed with some original weights,
after any finite sequence of transform switches chosen from
`{B, R, D, V}`, setting `transform = "O"` restores `weights` to exactly
the weight mapping captured at construction (the same association list:
same ids, same neighbor order, identical values). -/
theorem C1_transform_O_round_trip
    (neighbors : List (Nat × List Nat)) (weights? : Option (List (Nat × List Q)))
    (id_order? : Option (List Nat)) (w0 : W)
    (h0 : W.init neighbors weights? id_order? = some w0)
    (ts : List String) (hts : ∀ t ∈ ts, t ∈ (["B", "R", "D", "V"] : List String))
    (w1 : W) (h1 : applyTransforms w0 ts = some w1) :
    ∃ w2, W.set_transform w1 "O" = some (w2, false) ∧ w2.weights = w0.weights := by
  obtain ⟨hn0, htr0, hch0⟩ := init_shape h0
  have inv : ∀ (us : List String), (∀ t ∈ us, t ∈ (["B", "R", "D", "V"] : List String)) →
      ∀ w, w.neighbors = w0.neighbors → w._id_order = w0._id_order →
        alookup "O" w.transformations = some w0.weights →
        ∀ wend, applyTransforms w us = some wend →
          wend.neighbors = w0.neighbors ∧ wend._id_order = w0._id_order ∧
          alookup "O" wend.transformations = some w0.weights := by
    intro us
    induction us with
    | nil =>
        intro _ w hn hio hO wend h
        rw [applyTransforms] at h
        injection h with h
        subst h
        exact ⟨hn, hio, hO⟩
    | cons t rest ih =>
        intro hmem w hn hio hO wend h
        rw [applyTransforms] at h
        split at h
        next w2 b hst =>
          have hne : toUpperS t ≠ "O" := by
            have := hmem t (List.mem_cons_self _ _)
            simp only [List.mem_cons, List.not_mem_nil, or_false] at this
            rcases this with h' | h' | h' | h' <;> subst h' <;> decide
          obtain ⟨hpn, hpio, hptr⟩ := set_transform_preserves hst
          exact ih (fun u hu => hmem u (List.mem_cons_of_mem _ hu)) w2
            (hpn.trans hn) (hpio.trans hio)
            ((hptr "O" (fun he => hne he.symm)).trans hO) wend h
        next hst => exact absurd h (by simp)
  obtain ⟨hn1, hio1, hO1⟩ := inv ts hts w0 rfl rfl
    (by rw [htr0]; simp [alookup]) w1 h1
  have hupperO : toUpperS "O" = "O" := by decide
  rw [set_transform_cached (show alookup (toUpperS "O") w1.transformations = some w0.weights
    from by rw [hupperO]; exact hO1)]
  rw [hn1, hio1, hn0, hch0]
  exact ⟨_, rfl, rfl⟩

theorem C1_witness :
    (∀ t ∈ (["B", "R", "D", "V"] : List String), t ∈ (["B", "R", "D", "V"] : List String)) ∧
    ∃ w2, W.set_transform w6c "O" = some (w2, false) ∧ w2.weights = w6.weights := by
  refine ⟨fun t ht => ht, ?_⟩
  exact C1_transform_O_round_trip nbrs6 (some wts6) none w6 (by decide) _
    (fun t ht => ht) w6c (by decide)

/-- C2 (amended): setting `transform` to a name whose upper-cased form
is outside `{B, R, D, V, O}` prints the unsupported-transform message
and leaves `weights` and all derived characteristics unchanged, but it
overwrites the current transform indicator with the upper-cased name
(the source assigns `self._transform = value` before checking the
name).  The hypothesis on `transformations` holds in every reachable
state, whose keys are among `{O, R, D, B}`. -/
theorem C2_unsupported_transform (w : W) (value : String)
    (hval : toUpperS value ∉ (["B", "R", "D", "V", "O"] : List String))
    (hkey : alookup (toUpperS value) w.transformations = none) :
    W.set_transform w value = some ({ w with _transform := some (toUpperS value) }, true) := by
  simp only [List.mem_cons, List.not_mem_nil, or_false, not_or] at hval
  obtain ⟨hB, hR, hD, hV, hO⟩ := hval
  simp only [W.set_transform]
  split
  next cached' heq =>
    have heq' : alookup (toUpperS value) w.transformations = some cached' := heq
    rw [hkey] at heq'
    exact absurd heq' (by simp)
  next heq =>
    rw [if_neg hR, if_neg hD, if_neg hB, if_neg hV, if_neg hO]

theorem C2_witness :
    toUpperS "x" ∉ (["B", "R", "D", "V", "O"] : List String) ∧
    W.set_transform w6 "x" = some ({ w6 with _transform := some "X" }, true) := by
  refine ⟨by decide, ?_⟩
  exact C2_unsupported_transform w6 "x" (by decide) (by decide)

/-- C2 counterexample: on the scenario container, setting the
unsupported transform name `x` leaves weights and characteristics
unchanged but does change the current transform indicator, from `none`
to `some "X"`; the claim that the indicator is unchanged is false. -/
theorem C2_counterexample :
    W.init nbrs6 (some wts6) none = some w6 ∧
    w6._transform = none ∧
    ∃ w', W.set_transform w6 "x" = some (w', true) ∧ w'._transform ≠ w6._transform := by
  refine ⟨by decide, by decide, { w6 with _transform := some "X" }, by decide, by decide⟩

/-- C3: assigning to `id_order` a candidate sequence whose element set
differs from the set of the container ids raises the order mismatch
error, returning no new state (the functional embedding leaves the
container untouched by construction); a candidate whose element set
equals the id set succeeds, installs the new order, marks it user-set,
resets the scan position and invalidates the neighbor-offset cache,
leaving weights, neighbors, transformations and all characteristics
unchanged.  The hypothesis is the data model invariant
`set(id_order) == set(neighbors.keys())`. -/
theorem C3_id_order_mismatch (w : W) (ord : List Nat)
    (hinv : listSetEq w._id_order (assocKeys w.neighbors) = true) :
    (listSetEq ord (assocKeys w.neighbors) = false →
      W.set_id_order w ord = Except.error "ordered_ids do not align with W ids") ∧
    (listSetEq ord (assocKeys w.neighbors) = true →
      ∃ w', W.set_id_order w ord = Except.ok w' ∧
        w'._id_order = ord ∧ w'._id_order_set = true ∧ w'.neighbors_0 = none ∧
        w'._idx = 0 ∧ w'.weights = w.weights ∧ w'.neighbors = w.neighbors ∧
        w'.transformations = w.transformations ∧ extractChars w' = extractChars w) := by
  have hinv' := (listSetEq_iff _ _).mp hinv
  constructor
  · intro hm
    rw [W.set_id_order]
    have hne : ¬listSetEq w._id_order ord = true := by
      intro htrue
      have h1 := (listSetEq_iff _ _).mp htrue
      have : listSetEq ord (assocKeys w.neighbors) = true :=
        (listSetEq_iff _ _).mpr (fun x => ((h1 x).symm).trans (hinv' x))
      rw [hm] at this
      exact Bool.false_ne_true this
    rw [if_neg hne]
  · intro hm
    rw [W.set_id_order]
    have hyes : listSetEq w._id_order ord = true :=
      (listSetEq_iff _ _).mpr (fun x => (hinv' x).trans (((listSetEq_iff _ _).mp hm) x).symm)
    rw [if_pos hyes]
    exact ⟨_, rfl, rfl, rfl, rfl, rfl, rfl, rfl, rfl, rfl⟩

theorem C3_witness :
    listSetEq w6._id_order (assocKeys w6.neighbors) = true ∧
    W.set_id_order w6 [0, 1] = Except.error "ordered_ids do not align with W ids" ∧
    ∃ w', W.set_id_order w6 [2, 0, 1] = Except.ok w' ∧
      w'._id_order = [2, 0, 1] ∧ w'._id_order_set = true ∧ w'.neighbors_0 = none ∧
      w'._idx = 0 ∧ w'.weights = w6.weights ∧ w'.neighbors = w6.neighbors ∧
      w'.transformations = w6.transformations ∧ extractChars w' = extractChars w6 := by
  refine ⟨by decide, ?_, ?_⟩
  · exact (C3_id_order_mismatch w6 [0, 1] (by decide)).1 (by decide)
  · exact (C3_id_order_mismatch w6 [2, 0, 1] (by decide)).2 (by decide)

/-- C4 (code-bug evidence): on the scenario container the first `V`
transform succeeds but, unlike the `R`, `D` and `B` branches, does not
store the computed weights under `"V"` in `transformations`; therefore
re-selecting `V` recomputes the transform from the already transformed
weights and changes them instead of reusing a cached mapping. -/
theorem C4_V_not_cached :
    W.set_transform w6 "V" = some (w6v, false) ∧
    alookup "V" w6v.transformations = none ∧
    W.set_transform w6v "V" = some (w6vv, false) ∧
    w6vv.weights ≠ w6v.weights := by
  refine ⟨by decide, by decide, by decide, by decide⟩

/-- C6: for the container constructed from
`neighbors={0:[1],1:[0,2],2:[1]}` and `weights={0:[1],1:[1,1],2:[1]}`,
the derived characteristics satisfy `n = 3`, `nonzero = 4`, `s0 = 4.0`,
`islands = []`, `cardinalities = {0:1, 1:2, 2:1}` and
`asymmetric = False`. -/
theorem C6_concrete_scenario :
    ∃ w, W.init nbrs6 (some wts6) none = some w ∧
      w.n = 3 ∧ w.nonzero = 4 ∧ w.s0 = 4 ∧ w.islands = [] ∧
      w.cardinalities = [(0, 1), (1, 2), (2, 1)] ∧ w.asymmetric = false :=
  ⟨w6, by decide, by decide, by decide, by decide, by decide, by decide, by decide⟩

/-- C9 (code-bug evidence): the constructor performs no
neighbor/weight length validation.  For the input with one neighbor but
two weights at id 0, construction completes without any error and the
extra weight is silently ignored (`s0` sums only the aligned
positions), instead of failing fast with a descriptive error as the
specification requires. -/
theorem C9_no_length_validation :
    (∃ p ∈ nbrs9, ∀ q ∈ wts9, q.1 = p.1 → q.2.length ≠ p.2.length) ∧
    ∃ w, W.init nbrs9 (some wts9) none = some w ∧ w.s0 = 2 :=
  ⟨by decide, (W.init nbrs9 (some wts9) none).getD default, by decide, by decide⟩

/-! ## Structure of the weight-row transforms -/

theorem divRow_cons (wij : Q) (rest : List Q) (r : Q) :
    divRow (wij :: rest) r =
      (divChecked wij r).bind (fun x =>
      (divRow rest r).bind (fun rest' => some (x :: rest'))) := rfl

theorem divRow_length {r : Q} :
    ∀ {l l' : List Q}, divRow l r = some l' → l'.length = l.length := by
  intro l
  induction l with
  | nil =>
      intro l' h
      rw [divRow] at h
      injection h with h
      subst h
      rfl
  | cons wij rest ih =>
      intro l' h
      rw [divRow_cons] at h
      simp only [Option.bind_eq_some] at h
      obtain ⟨x, _, rest', hrest, heq⟩ := h
      injection heq with heq
      subst heq
      simp [ih hrest]

theorem divRow_isSome {r : Q} (hr : r.n ≠ 0) :
    ∀ l : List Q, (divRow l r).isSome = true := by
  intro l
  induction l with
  | nil => rfl
  | cons wij rest ih =>
      rw [divRow_cons]
      rw [divChecked, if_neg hr]
      obtain ⟨rest', hrest⟩ := Option.isSome_iff_exists.mp ih
      rw [hrest]
      rfl

theorem rowsTransformR_cons (i : Nat) (wijs : List Q) (rest : List (Nat × List Q)) :
    rowsTransformR ((i, wijs) :: rest) =
      (divRow wijs (wijs.sum * (1 : Q))).bind (fun ws =>
      (rowsTransformR rest).bind (fun rest' => some ((i, ws) :: rest'))) := rfl

theorem rowsTransformR_keys :
    ∀ {l l' : List (Nat × List Q)}, rowsTransformR l = some l' →
      assocKeys l' = assocKeys l := by
  intro l
  induction l with
  | nil =>
      intro l' h
      rw [rowsTransformR] at h
      injection h with h
      subst h
      rfl
  | cons p rest ih =>
      intro l' h
      obtain ⟨i, wijs⟩ := p
      rw [rowsTransformR_cons] at h
      simp only [Option.bind_eq_some] at h
      obtain ⟨ws, _, rest', hrest, heq⟩ := h
      injection heq with heq
      subst heq
      show i :: assocKeys rest' = i :: assocKeys rest
      rw [ih hrest]

theorem rowsTransformR_lookup :
    ∀ {l l' : List (Nat × List Q)}, rowsTransformR l = some l' →
      ∀ k, alookup k l' = (alookup k l).bind (fun wijs => divRow wijs (wijs.sum * (1 : Q))) := by
  intro l
  induction l with
  | nil =>
      intro l' h k
      rw [rowsTransformR] at h
      injection h with h
      subst h
      rfl
  | cons p rest ih =>
      intro l' h k
      obtain ⟨i, wijs⟩ := p
      rw [rowsTransformR_cons] at h
      simp only [Option.bind_eq_some] at h
      obtain ⟨ws, hws, rest', hrest, heq⟩ := h
      injection heq with heq
      subst heq
      by_cases hk : i = k
      · subst hk
        show alookup i ((i, ws) :: rest') = _
        rw [alookup, if_pos rfl, alookup, if_pos rfl]
        rw [Option.some_bind, hws]
      · show alookup k ((i, ws) :: rest') = _
        rw [alookup, if_neg hk, alookup, if_neg hk]
        exact ih hrest k

theorem rowsTransformR_isSome {l : List (Nat × List Q)}
    (h : ∀ p ∈ l, p.2 ≠ [] → (p.2.sum).n ≠ 0) :
    (rowsTransformR l).isSome = true := by
  induction l with
  | nil => rfl
  | cons p rest ih =>
      obtain ⟨i, wijs⟩ := p
      rw [rowsTransformR_cons]
      have hrow : (divRow wijs (wijs.sum * (1 : Q))).isSome = true := by
        cases wijs with
        | nil => rfl
        | cons x xs =>
            apply divRow_isSome
            have : (((x :: xs).sum * (1 : Q)).n) = ((x :: xs).sum).n * 1 := rfl
            rw [this, Int.mul_one]
            exact h (i, x :: xs) (List.mem_cons_self _ _) (by simp)
      obtain ⟨ws, hws⟩ := Option.isSome_iff_exists.mp hrow
      rw [hws]
      have hrest : (rowsTransformR rest).isSome = true :=
        ih (fun p hp => h p (List.mem_cons_of_mem _ hp))
      obtain ⟨rest', hrest'⟩ := Option.isSome_iff_exists.mp hrest
      rw [Option.some_bind, hrest']
      rfl

theorem rowsTransformV_cons (i : Nat) (wijs : List Q) (rest : List (Nat × List Q)) :
    rowsTransformV ((i, wijs) :: rest) =
      (divRow wijs (sqrtQ ((wijs.map (fun wij => wij * wij)).sum))).bind (fun si =>
      (rowsTransformV rest).bind (fun rest' => some ((i, si) :: rest'))) := rfl

theorem rowsTransformV_keys :
    ∀ {l l' : List (Nat × List Q)}, rowsTransformV l = some l' →
      assocKeys l' = assocKeys l := by
  intro l
  induction l with
  | nil =>
      intro l' h
      rw [rowsTransformV] at h
      injection h with h
      subst h
      rfl
  | cons p rest ih =>
      intro l' h
      obtain ⟨i, wijs⟩ := p
      rw [rowsTransformV_cons] at h
      simp only [Option.bind_eq_some] at h
      obtain ⟨si, _, rest', hrest, heq⟩ := h
      injection heq with heq
      subst heq
      show i :: assocKeys rest' = i :: assocKeys rest
      rw [ih hrest]

/-- C8: for every container constructed under the data model invariants
(unique ids, aligned key sets, iteration order a permutation of the
ids), after construction and after every sequence of successful
transform switches, the derived characteristics are internally
consistent: the cardinalities sum to `nonzero`, and the histogram
counts sum to `n` (every id falls in exactly one bin). -/
theorem C8_characteristics_consistent
    (neighbors : List (Nat × List Nat)) (weights? : Option (List (Nat × List Q)))
    (id_order? : Option (List Nat)) (w0 : W)
    (h0 : W.init neighbors weights? id_order? = some w0)
    (hperm : w0._id_order.Perm (assocKeys neighbors))
    (hnd : (assocKeys neighbors).Nodup)
    (hwk : assocKeys w0.weights = assocKeys neighbors)
    (ts : List String) (hts : ∀ t ∈ ts, t ∈ (["B", "R", "D", "V", "O"] : List String))
    (w1 : W) (h1 : applyTransforms w0 ts = some w1) :
    (w1.cardinalities.map Prod.snd).sum = w1.nonzero ∧
    (w1.histogram.map Prod.snd).sum = w1.n := by
  obtain ⟨hn0, htr0, hch0⟩ := init_shape h0
  have step : ∀ (w : W) (t : String) (w2 : W) (b : Bool),
      w.neighbors = neighbors →
      w._id_order = w0._id_order →
      assocKeys w.weights = assocKeys neighbors →
      (∀ k v, alookup k w.transformations = some v → assocKeys v = assocKeys neighbors) →
      (alookup "O" w.transformations).isSome = true →
      W.set_transform w t = some (w2, b) →
      t ∈ (["B", "R", "D", "V", "O"] : List String) →
      w2.neighbors = neighbors ∧
      w2._id_order = w0._id_order ∧
      assocKeys w2.weights = assocKeys neighbors ∧
      (∀ k v, alookup k w2.transformations = some v → assocKeys v = assocKeys neighbors) ∧
      (alookup "O" w2.transformations).isSome = true ∧
      characteristicsOf neighbors w2.weights w0._id_order = some (extractChars w2) := by
    intro w t w2 b hn hio hwkeys htrv hOsome hst htmem
    rcases set_transform_shape hst with ⟨cached, c, hlook, hc, hw2, _⟩ | ⟨hnone, hcase⟩
    · subst hw2
      refine ⟨hn, hio, ?_, htrv, hOsome, ?_⟩
      · show assocKeys cached = _
        exact htrv _ _ hlook
      · show characteristicsOf neighbors cached w0._id_order = some c
        rw [← hn, ← hio]
        exact hc
    · rcases hcase with ⟨hR, htr, _⟩ | ⟨hD, htr, _⟩ | ⟨hB, htr, _⟩ | ⟨hV, htr, _⟩ |
        ⟨nR, nD, nB, nV, nO, _, _⟩
      · obtain ⟨nw, c, hnw, hc, hw2⟩ := transformR_shape htr
        subst hw2
        have hnw' : rowsTransformR w.weights = some nw := hnw
        have hkeys' : assocKeys nw = assocKeys neighbors := by
          rw [rowsTransformR_keys hnw']
          exact hwkeys
        refine ⟨hn, hio, hkeys', ?_, ?_, ?_⟩
        · intro k v hkv
          have hkv' : alookup k (assocSet "R" nw w.transformations) = some v := hkv
          by_cases hk : k = "R"
          · subst hk
            rw [alookup_assocSet_self] at hkv'
            injection hkv' with hkv'
            subst hkv'
            exact hkeys'
          · rw [alookup_assocSet_ne (Ne.symm hk)] at hkv'
            exact htrv k v hkv'
        · show (alookup "O" (assocSet "R" nw w.transformations)).isSome = true
          rw [alookup_assocSet_ne (by decide : ("R" : String) ≠ "O")]
          exact hOsome
        · show characteristicsOf neighbors nw w0._id_order = some c
          rw [← hn, ← hio]
          exact hc
      · obtain ⟨c1, ws, c2, hc1, hws, hc2, hw2⟩ := transformD_shape htr
        subst hw2
        have hkeys' : assocKeys (w.weights.map (fun p => (p.1, p.2.map (fun wij => wij * ws)))) =
            assocKeys neighbors := by
          rw [assocKeys_map_snd]
          exact hwkeys
        refine ⟨hn, hio, hkeys', ?_, ?_, ?_⟩
        · intro k v hkv
          have hkv' : alookup k (assocSet "D"
              (w.weights.map (fun p => (p.1, p.2.map (fun wij => wij * ws))))
              w.transformations) = some v := hkv
          by_cases hk : k = "D"
          · subst hk
            rw [alookup_assocSet_self] at hkv'
            injection hkv' with hkv'
            subst hkv'
            exact hkeys'
          · rw [alookup_assocSet_ne (Ne.symm hk)] at hkv'
            exact htrv k v hkv'
        · show (alookup "O" (assocSet "D" _ w.transformations)).isSome = true
          rw [alookup_assocSet_ne (by decide : ("D" : String) ≠ "O")]
          exact hOsome
        · show characteristicsOf neighbors
            (w.weights.map (fun p => (p.1, p.2.map (fun wij => wij * ws))))
            w0._id_order = some c2
          rw [← hn, ← hio]
          exact hc2
      · obtain ⟨c, hc, hw2⟩ := transformB_shape htr
        subst hw2
        have hkeys' : assocKeys (w.weights.map (fun p => (p.1, p.2.map (fun _ => (1 : Q))))) =
            assocKeys neighbors := by
          rw [assocKeys_map_snd]
          exact hwkeys
        refine ⟨hn, hio, hkeys', ?_, ?_, ?_⟩
        · intro k v hkv
          have hkv' : alookup k (assocSet "B"
              (w.weights.map (fun p => (p.1, p.2.map (fun _ => (1 : Q)))))
              w.transformations) = some v := hkv
          by_cases hk : k = "B"
          · subst hk
            rw [alookup_assocSet_self] at hkv'
            injection hkv' with hkv'
            subst hkv'
            exact hkeys'
          · rw [alookup_assocSet_ne (Ne.symm hk)] at hkv'
            exact htrv k v hkv'
        · show (alookup "O" (assocSet "B" _ w.transformations)).isSome = true
          rw [alookup_assocSet_ne (by decide : ("B" : String) ≠ "O")]
          exact hOsome
        · show characteristicsOf neighbors
            (w.weights.map (fun p => (p.1, p.2.map (fun _ => (1 : Q)))))
            w0._id_order = some c
          rw [← hn, ← hio]
          exact hc
      · obtain ⟨qs, nQ, c, hqs, hnQ, hc, hw2⟩ := transformV_shape htr
        subst hw2
        have hqs' : rowsTransformV w.weights = some qs := hqs
        have hkeys' : assocKeys (qs.map (fun p => (p.1, p.2.map (fun s => s * nQ)))) =
            assocKeys neighbors := by
          rw [assocKeys_map_snd, rowsTransformV_keys hqs']
          exact hwkeys
        refine ⟨hn, hio, hkeys', htrv, hOsome, ?_⟩
        show characteristicsOf neighbors
          (qs.map (fun p => (p.1, p.2.map (fun s => s * nQ)))) w0._id_order = some c
        rw [← hn, ← hio]
        exact hc
      · simp only [List.mem_cons, List.not_mem_nil, or_false] at htmem
        rcases htmem with h' | h' | h' | h' | h' <;> subst h'
        · exact absurd (by decide : toUpperS "B" = "B") nB
        · exact absurd (by decide : toUpperS "R" = "R") nR
        · exact absurd (by decide : toUpperS "D" = "D") nD
        · exact absurd (by decide : toUpperS "V" = "V") nV
        · exact absurd (by decide : toUpperS "O" = "O") nO
  have main : ∀ (us : List String),
      (∀ t ∈ us, t ∈ (["B", "R", "D", "V", "O"] : List String)) →
      ∀ w, w.neighbors = neighbors → w._id_order = w0._id_order →
        assocKeys w.weights = assocKeys neighbors →
        (∀ k v, alookup k w.transformations = some v → assocKeys v = assocKeys neighbors) →
        (alookup "O" w.transformations).isSome = true →
        characteristicsOf neighbors w.weights w0._id_order = some (extractChars w) →
        ∀ wend, applyTransforms w us = some wend →
          assocKeys wend.weights = assocKeys neighbors ∧
          characteristicsOf neighbors wend.weights w0._id_order = some (extractChars wend) := by
    intro us
    induction us with
    | nil =>
        intro _ w _ _ hwkeys _ _ hch wend h
        rw [applyTransforms] at h
        injection h with h
        subst h
        exact ⟨hwkeys, hch⟩
    | cons t rest ih =>
        intro hmem w hn hio hwkeys htrv hOs hch wend h
        rw [applyTransforms] at h
        split at h
        next w2 b hst =>
          obtain ⟨sn, sio, swk, strv, sOs, sch⟩ :=
            step w t w2 b hn hio hwkeys htrv hOs hst (hmem t (List.mem_cons_self _ _))
          exact ih (fun u hu => hmem u (List.mem_cons_of_mem _ hu)) w2 sn sio swk strv sOs
            sch wend h
        next => exact absurd h (by simp)
  have htrv0 : ∀ k v, alookup k w0.transformations = some v →
      assocKeys v = assocKeys neighbors := by
    intro k v hkv
    rw [htr0, alookup] at hkv
    by_cases hk : ("O" : String) = k
    · rw [if_pos hk] at hkv
      injection hkv with hkv
      subst hkv
      exact hwk
    · rw [if_neg hk] at hkv
      rw [alookup] at hkv
      exact absurd hkv (by simp)
  have hOs0 : (alookup "O" w0.transformations).isSome = true := by
    rw [htr0]
    simp [alookup]
  obtain ⟨hwk1, hch1⟩ := main ts hts w0 hn0 rfl hwk htrv0 hOs0 hch0 w1 h1
  have hndo : w0._id_order.Nodup := hperm.nodup_iff.mpr hnd
  have hlen : w1.weights.length = w0._id_order.length := by
    have h1l : w1.weights.length = (assocKeys w1.weights).length :=
      (List.length_map _ _).symm
    rw [h1l, hwk1, ← hperm.length_eq]
  exact characteristicsOf_consistent hch1 hndo hlen

theorem C8_witness :
    (W.init nbrs6 (some wts6) none = some w6) ∧
    ∃ w', applyTransforms w6 ["R"] = some w' ∧
      (w'.cardinalities.map Prod.snd).sum = w'.nonzero ∧
      (w'.histogram.map Prod.snd).sum = w'.n := by
  refine ⟨by decide, (applyTransforms w6 ["R"]).getD default, by decide, ?_⟩
  exact C8_characteristics_consistent nbrs6 (some wts6) none w6 (by decide) (by decide)
    (by decide) (by decide) ["R"] (by decide) _ (by decide)

/-- C5: for every constructed container whose neighbor lists are
duplicate-free (and which satisfies the data model invariants on keys
and iteration order), the derived moment `s1` equals one half of the
sum of `(w_ij + w_ji)^2` over all directed edges actually stored, a
missing reciprocal weight counting as `0` — i.e. the characteristics
pass accumulates `(w_ij + w_ji)**2` once per stored directed edge and
divides the total by two, double-counting each reciprocated pair once
from each side. -/
theorem C5_s1_half_sum (neighbors : List (Nat × List Nat))
    (weights? : Option (List (Nat × List Q))) (id_order? : Option (List Nat)) (w : W)
    (h0 : W.init neighbors weights? id_order? = some w)
    (hrows : ∀ p ∈ neighbors, p.2.Nodup)
    (hnd : (assocKeys neighbors).Nodup)
    (hperm : w._id_order.Perm (assocKeys neighbors)) :
    w.s1 = specS1 neighbors w.weights := by
  obtain ⟨_, _, hch0⟩ := init_shape h0
  exact characteristicsOf_s1 hch0 hnd hperm

theorem C5_witness :
    (∀ p ∈ nbrs5, p.2.Nodup) ∧
    ∃ w, W.init nbrs5 (some wts5) none = some w ∧ w.s1 = specS1 nbrs5 w.weights := by
  refine ⟨by decide, (W.init nbrs5 (some wts5) none).getD default, by decide, ?_⟩
  exact C5_s1_half_sum nbrs5 (some wts5) none _ (by decide) (by decide) (by decide)
    (by decide)

/-! ## Agreement of `asymmetry` with its specification -/

theorem aindex_eq_length_of_not_mem {α : Type} [DecidableEq α] :
    ∀ {l : List α} {x : α}, x ∉ l → aindex x l = l.length := by
  intro l
  induction l with
  | nil => intro x _; rfl
  | cons y rest ih =>
      intro x hx
      rw [aindex]
      have hy : y ≠ x := fun he => hx (he ▸ List.mem_cons_self _ _)
      rw [if_neg hy]
      rw [ih (fun hm => hx (List.mem_cons_of_mem _ hm))]
      rfl

theorem aget_none_of_le {α : Type} :
    ∀ (l : List α) (k : Nat), l.length ≤ k → aget l k = none := by
  intro l
  induction l with
  | nil => intro k _; rfl
  | cons x rest ih =>
      intro k hk
      cases k with
      | zero => exact absurd hk (by simp)
      | succ m => exact ih m (Nat.le_of_succ_le_succ hk)

theorem aget_drop {α : Type} :
    ∀ (k : Nat) (l : List α) {w0 : α} {t : List α}, l.drop k = w0 :: t →
      aget l k = some w0 := by
  intro k
  induction k with
  | zero =>
      intro l w0 t h
      rw [List.drop_zero] at h
      subst h
      rfl
  | succ m ih =>
      intro l w0 t h
      cases l with
      | nil => simp at h
      | cons x xs => exact ih xs h

theorem drop_cons_succ {α : Type} :
    ∀ (k : Nat) (l : List α) {w0 : α} {t : List α}, l.drop k = w0 :: t →
      l.drop (k + 1) = t := by
  intro k
  induction k with
  | zero =>
      intro l w0 t h
      rw [List.drop_zero] at h
      subst h
      rfl
  | succ m ih =>
      intro l w0 t h
      cases l with
      | nil => simp at h
      | cons x xs => exact ih xs h

theorem recip_lookup_some {neighbors : List (Nat × List Nat)} {weights : List (Nat × List Q)}
    (hlen : ∀ p ∈ neighbors, (alookup p.1 weights).map List.length = some p.2.length)
    (i : Nat) {j : Nat} {nj : List Nat} (hnj : alookup j neighbors = some nj) :
    ((alookup j weights).bind (fun w_j => aget w_j (aindex i nj))) =
      (if i ∈ nj then some (w_of neighbors weights j i) else none) := by
  have hmem : (j, nj) ∈ neighbors := alookup_mem hnj
  have hli := hlen (j, nj) hmem
  cases hwj : alookup j weights with
  | none => rw [hwj] at hli; simp at hli
  | some wj =>
      rw [hwj] at hli
      simp only [Option.map_some'] at hli
      injection hli with hli
      rw [Option.some_bind]
      by_cases him : i ∈ nj
      · rw [if_pos him]
        have hidx : aindex i nj < wj.length := by
          rw [hli]
          exact aindex_lt_of_mem him
        obtain ⟨x, hx⟩ := Option.isSome_iff_exists.mp (aget_isSome_of_lt _ _ hidx)
        rw [hx, w_of_eq hnj hwj i, if_pos him, hx]
        rfl
      · rw [if_neg him]
        rw [aindex_eq_length_of_not_mem him]
        exact aget_none_of_le _ _ (Nat.le_of_eq hli)

theorem asymRow_cons (neighbors : List (Nat × List Nat)) (weights : List (Nat × List Q))
    (nz : Bool) (i : Nat) (pos j : Nat) (rest : List (Nat × Nat)) :
    asymRow neighbors weights nz i ((pos, j) :: rest) =
      (alookup i weights).bind (fun w_i =>
      (aget w_i pos).bind (fun wij =>
      (asymRow neighbors weights nz i rest).bind (fun rest' =>
      match ((alookup j weights).bind (fun w_j =>
        (alookup j neighbors).bind (fun neighbors_j =>
        aget w_j (aindex i neighbors_j)))) with
      | some wji =>
          if nz = false ∧ wij ≠ wji then some (((i, j), some (j, i)) :: rest')
          else some rest'
      | none => some (((i, j), none) :: rest')))) := rfl

theorem asymRow_spec {neighbors : List (Nat × List Nat)} {weights : List (Nat × List Q)}
    (hlen : ∀ p ∈ neighbors, (alookup p.1 weights).map List.length = some p.2.length)
    (nz : Bool) (i : Nat) {wi : List Q} (hwi : alookup i weights = some wi) :
    ∀ (js : List Nat) (k : Nat) (ws : List Q), wi.drop k = ws → js.length ≤ ws.length →
      asymRow neighbors weights nz i (List.enumFrom k js) =
        some ((js.zip ws).filterMap (fun q =>
          match alookup q.1 neighbors with
          | none => some ((i, q.1), none)
          | some nj =>
              if i ∈ nj then
                if nz then none
                else if q.2 ≠ w_of neighbors weights q.1 i then
                  some ((i, q.1), some (q.1, i))
                else none
              else some ((i, q.1), none))) := by
  intro js
  induction js with
  | nil =>
      intro k ws _ _
      rfl
  | cons j js' ih =>
      intro k ws hdrop hle
      cases ws with
      | nil => simp at hle
      | cons w0 ws' =>
          have henum : List.enumFrom k (j :: js') = (k, j) :: List.enumFrom (k + 1) js' := rfl
          rw [henum, asymRow_cons, hwi, Option.some_bind, aget_drop k wi hdrop,
            Option.some_bind,
            ih (k + 1) ws' (drop_cons_succ k wi hdrop) (by simpa using Nat.le_of_succ_le_succ hle),
            Option.some_bind]
          cases hnj : alookup j neighbors with
          | none =>
              cases alookup j weights <;>
                simp [List.zip_cons_cons, List.filterMap_cons, hnj]
          | some nj =>
              simp only [Option.some_bind]
              rw [recip_lookup_some hlen i hnj]
              by_cases him : i ∈ nj
              · rw [if_pos him]
                by_cases hne : w0 = w_of neighbors weights j i
                · cases nz <;>
                    simp [List.zip_cons_cons, List.filterMap_cons, hnj, him, hne]
                · cases nz <;>
                    simp [List.zip_cons_cons, List.filterMap_cons, hnj, him, hne]
              · rw [if_neg him]
                simp [List.zip_cons_cons, List.filterMap_cons, hnj, him]

theorem asymLoop_cons (neighbors : List (Nat × List Nat)) (weights : List (Nat × List Q))
    (nz : Bool) (i : Nat) (ns : List Nat) (rest : List (Nat × List Nat)) :
    asymLoop neighbors weights nz ((i, ns) :: rest) =
      (asymRow neighbors weights nz i ns.enum).bind (fun row =>
      (asymLoop neighbors weights nz rest).bind (fun rest' =>
      some (row ++ rest'))) := rfl

theorem asymLoop_spec {neighbors : List (Nat × List Nat)} {weights : List (Nat × List Q)}
    (hlen : ∀ p ∈ neighbors, (alookup p.1 weights).map List.length = some p.2.length)
    (nz : Bool) :
    ∀ rows : List (Nat × List Nat), (∀ p ∈ rows, p ∈ neighbors) →
      asymLoop neighbors weights nz rows =
        some ((rows.map (fun p =>
          (p.2.zip ((alookup p.1 weights).getD [])).filterMap (fun q =>
            match alookup q.1 neighbors with
            | none => some ((p.1, q.1), none)
            | some nj =>
                if p.1 ∈ nj then
                  if nz then none
                  else if q.2 ≠ w_of neighbors weights q.1 p.1 then
                    some ((p.1, q.1), some (q.1, p.1))
                  else none
                else some ((p.1, q.1), none)))).flatten) := by
  intro rows
  induction rows with
  | nil => intro _; rfl
  | cons p rest ih =>
      intro hmem
      obtain ⟨i, ns⟩ := p
      have hp := hmem (i, ns) (List.mem_cons_self _ _)
      have hli := hlen (i, ns) hp
      cases hwi : alookup i weights with
      | none => rw [hwi] at hli; simp at hli
      | some wi =>
          rw [hwi] at hli
          simp only [Option.map_some'] at hli
          injection hli with hli
          rw [asymLoop_cons,
            show ns.enum = List.enumFrom 0 ns from rfl,
            asymRow_spec hlen nz i hwi ns 0 wi (List.drop_zero wi) (Nat.le_of_eq hli.symm),
            Option.some_bind,
            ih (fun q hq => hmem q (List.mem_cons_of_mem _ hq)),
            Option.some_bind]
          simp only [List.map_cons, List.flatten_cons, hwi, Option.getD_some]

/-- C7: for every container whose weight rows are aligned with its
neighbor rows, `asymmetry(nonzero)` returns (without raising) exactly
one entry per offending directed edge: `((i,j), ())` when `j` does not
list `i` as a neighbor, and `((i,j), (j,i))` when the reciprocal
exists, `nonzero` is false and `w_ij` differs from `w_ji` (with
`nonzero` true an existing reciprocal is never reported); the entries
follow the iteration order over ids and, within an id, the stored
neighbor-list order, as captured by `asymmetrySpec`. -/
theorem C7_asymmetry_agrees (w : W) (nz : Bool)
    (hlen : ∀ p ∈ w.neighbors, (alookup p.1 w.weights).map List.length = some p.2.length) :
    W.asymmetry w nz = some (asymmetrySpec w.neighbors w.weights nz) :=
  asymLoop_spec hlen nz w.neighbors (fun _ hp => hp)

theorem C7_witness :
    (∀ p ∈ w7.neighbors, (alookup p.1 w7.weights).map List.length = some p.2.length) ∧
    W.asymmetry w7 true = some (asymmetrySpec w7.neighbors w7.weights true) ∧
    asymmetrySpec w7.neighbors w7.weights true = [((0, 1), none)] :=
  ⟨by decide, C7_asymmetry_agrees w7 true (by decide), by decide⟩

/-! ## Totality of the characteristics computation on well formed containers -/

theorem edgeLoop_isSome {neighbors : List (Nat × List Nat)} {weights : List (Nat × List Q)}
    (hkeys : assocKeys weights = assocKeys neighbors)
    (hlen : ∀ p ∈ neighbors, (alookup p.1 weights).map List.length = some p.2.length)
    (i : Nat) (ni : List Nat) (wi : List Q) (hwni : wi.length = ni.length) :
    ∀ js : List Nat, (∀ j ∈ js, j ∈ assocKeys neighbors) →
      ∀ a : Accum, (edgeLoop neighbors weights i ni wi js a).isSome = true := by
  intro js
  induction js with
  | nil => intro _ a; rfl
  | cons j rest ih =>
      intro hmem a
      have hj : j ∈ assocKeys neighbors := hmem j (List.mem_cons_self _ _)
      obtain ⟨nj, hnj⟩ := Option.isSome_iff_exists.mp ((alookup_isSome_iff neighbors j).mpr hj)
      obtain ⟨wj, hwj⟩ := Option.isSome_iff_exists.mp
        ((alookup_isSome_iff weights j).mpr (by rw [hkeys]; exact hj))
      have hlj := hlen (j, nj) (alookup_mem hnj)
      rw [hwj] at hlj
      simp only [Option.map_some'] at hlj
      injection hlj with hlj
      rw [edgeLoop_cons, hwj, Option.some_bind, hnj, Option.some_bind]
      have hwji : ∃ wji, (if i ∈ nj then aget wj (aindex i nj) else some (0 : Q)) = some wji := by
        by_cases him : i ∈ nj
        · rw [if_pos him]
          exact Option.isSome_iff_exists.mp
            (aget_isSome_of_lt _ _ (by rw [hlj]; exact aindex_lt_of_mem him))
        · exact ⟨0, if_neg him⟩
      obtain ⟨wji, hwji⟩ := hwji
      rw [hwji, Option.some_bind]
      have hwij : ∃ wij, (if j ∈ ni then aget wi (aindex j ni) else some (0 : Q)) = some wij := by
        by_cases hjm : j ∈ ni
        · rw [if_pos hjm]
          exact Option.isSome_iff_exists.mp
            (aget_isSome_of_lt _ _ (by rw [hwni]; exact aindex_lt_of_mem hjm))
        · exact ⟨0, if_neg hjm⟩
      obtain ⟨wij, hwij⟩ := hwij
      rw [hwij, Option.some_bind]
      exact ih (fun q hq => hmem q (List.mem_cons_of_mem _ hq)) _

theorem idLoop_isSome {neighbors : List (Nat × List Nat)} {weights : List (Nat × List Q)}
    (hkeys : assocKeys weights = assocKeys neighbors)
    (hlen : ∀ p ∈ neighbors, (alookup p.1 weights).map List.length = some p.2.length)
    (hclosed : ∀ p ∈ neighbors, ∀ j ∈ p.2, j ∈ assocKeys neighbors) :
    ∀ ids : List Nat, (∀ i ∈ ids, i ∈ assocKeys neighbors) →
      ∀ a : Accum, (idLoop neighbors weights ids a).isSome = true := by
  intro ids
  induction ids with
  | nil => intro _ a; rfl
  | cons i rest ih =>
      intro hmem a
      have hi : i ∈ assocKeys neighbors := hmem i (List.mem_cons_self _ _)
      obtain ⟨ni, hni⟩ := Option.isSome_iff_exists.mp ((alookup_isSome_iff neighbors i).mpr hi)
      obtain ⟨wi, hwi⟩ := Option.isSome_iff_exists.mp
        ((alookup_isSome_iff weights i).mpr (by rw [hkeys]; exact hi))
      have hli := hlen (i, ni) (alookup_mem hni)
      rw [hwi] at hli
      simp only [Option.map_some'] at hli
      injection hli with hli
      rw [idLoop_cons, hni, Option.some_bind, hwi, Option.some_bind]
      have hedge := edgeLoop_isSome hkeys hlen i ni wi hli ni
        (hclosed (i, ni) (alookup_mem hni))
        { a with cardinalities := assocSet i ni.length a.cardinalities }
      obtain ⟨a2, ha2⟩ := Option.isSome_iff_exists.mp hedge
      rw [ha2, Option.some_bind]
      exact ih (fun q hq => hmem q (List.mem_cons_of_mem _ hq)) a2

theorem s2Terms_isSome (rowSum : List (Nat × Q)) :
    ∀ colSum : List (Nat × Q), (∀ p ∈ colSum, p.1 ∈ assocKeys rowSum) →
      (s2Terms rowSum colSum).isSome = true := by
  intro colSum
  induction colSum with
  | nil => intro _; rfl
  | cons p rest ih =>
      intro hmem
      obtain ⟨i, ci⟩ := p
      obtain ⟨ri, hri⟩ := Option.isSome_iff_exists.mp
        ((alookup_isSome_iff rowSum i).mpr (hmem (i, ci) (List.mem_cons_self _ _)))
      have hcons : s2Terms rowSum ((i, ci) :: rest) =
          (alookup i rowSum).bind (fun ri =>
          (s2Terms rowSum rest).bind (fun rest' =>
          some ((ci + ri) * (ci + ri) :: rest'))) := rfl
      rw [hcons, hri, Option.some_bind]
      obtain ⟨rest', hrest⟩ := Option.isSome_iff_exists.mp
        (ih (fun q hq => hmem q (List.mem_cons_of_mem _ hq)))
      rw [hrest]
      rfl

theorem characteristicsOf_isSome {neighbors : List (Nat × List Nat)}
    {weights : List (Nat × List Q)} {idOrder : List Nat}
    (hwf : WF neighbors weights idOrder) :
    (characteristicsOf neighbors weights idOrder).isSome = true := by
  obtain ⟨hkeys, hnd, hlen, hclosed, hperm, hne⟩ := hwf
  have hido : ∀ i ∈ idOrder, i ∈ assocKeys neighbors := fun i hi => hperm.mem_iff.mp hi
  obtain ⟨a, ha⟩ := Option.isSome_iff_exists.mp
    (idLoop_isSome hkeys hlen hclosed idOrder hido ⟨0, 0, [], [], [], 0⟩)
  have hndo : idOrder.Nodup := hperm.nodup_iff.mpr hnd
  obtain ⟨hcards, hnz, hsync, hs1⟩ := idLoop_eq neighbors weights idOrder _ _ ha hndo
    (fun i0 _ => rfl)
  have hsync2 : assocKeys a.colSum = assocKeys a.rowSum := hsync rfl
  obtain ⟨terms, hterms⟩ := Option.isSome_iff_exists.mp
    (s2Terms_isSome a.rowSum a.colSum (fun p hp => by
      rw [← hsync2]
      exact List.mem_map_of_mem Prod.fst hp))
  have hidne : idOrder ≠ [] := by
    intro he
    apply hne
    rw [he] at hperm
    have hk : assocKeys neighbors = [] := hperm.symm.eq_nil
    cases neighbors with
    | nil => rfl
    | cons q l => simp [assocKeys] at hk
  have hvne : a.cardinalities.map Prod.snd ≠ [] := by
    rw [hcards]
    cases idOrder with
    | nil => exact absurd rfl hidne
    | cons x xs => simp
  obtain ⟨mx, hmx⟩ := Option.isSome_iff_exists.mp (listMax_isSome hvne)
  obtain ⟨mn, hmn⟩ := Option.isSome_iff_exists.mp (listMin_isSome hvne)
  have hwl : weights.length ≠ 0 := by
    have h1 : (assocKeys weights).length = (assocKeys neighbors).length := by rw [hkeys]
    rw [assocKeys, assocKeys, List.length_map, List.length_map] at h1
    rw [h1]
    intro h0
    exact hne (List.eq_nil_of_length_eq_zero h0)
  have hwlz : ((weights.length : Int)) ≠ 0 := by exact_mod_cast hwl
  have hmean : divChecked (Q.ofNat (a.cardinalities.map Prod.snd).sum)
      (Q.ofNat weights.length * (1 : Q)) =
      some ⟨(Q.ofNat (a.cardinalities.map Prod.snd).sum).n *
              (Q.ofNat weights.length * (1 : Q)).d,
            (Q.ofNat (a.cardinalities.map Prod.snd).sum).d *
              (Q.ofNat weights.length * (1 : Q)).n⟩ := by
    rw [divChecked, if_neg]
    show ¬((weights.length : Int) * 1 = 0)
    rw [Int.mul_one]
    exact hwlz
  have hpct : divChecked (Q.ofNat a.nonzero)
      (((1 : Q) * Q.ofNat weights.length) * Q.ofNat weights.length) =
      some ⟨(Q.ofNat a.nonzero).n * (((1 : Q) * Q.ofNat weights.length) * Q.ofNat weights.length).d,
            (Q.ofNat a.nonzero).d *
              (((1 : Q) * Q.ofNat weights.length) * Q.ofNat weights.length).n⟩ := by
    rw [divChecked, if_neg]
    show ¬(1 * (weights.length : Int) * (weights.length : Int) = 0)
    rw [Int.one_mul]
    exact Int.mul_ne_zero hwlz hwlz
  have hasym := asymLoop_spec hlen true neighbors (fun _ hp => hp)
  rw [characteristicsOf_eq, ha, Option.some_bind, hterms, Option.some_bind,
    hmx, Option.some_bind, hmn, Option.some_bind, hmean, Option.some_bind,
    hpct, Option.some_bind, hasym, Option.some_bind]
  rfl

/-! ## The uncached `R` branch of the transform setter -/

theorem set_transform_R_uncached {w : W}
    (hl : alookup "R" w.transformations = none) :
    W.set_transform w "R" =
      (transformR { w with _transform := some "R" }).map (fun w' => (w', false)) := by
  have hup : toUpperS "R" = "R" := by decide
  simp only [W.set_transform, hup]
  split
  next cached heq =>
    have heq' : alookup "R" w.transformations = some cached := heq
    rw [hl] at heq'
    exact absurd heq' (by simp)
  next heq =>
    rw [if_pos trivial]

theorem transformR_total {w : W} {nw : List (Nat × List Q)} {c : Chars}
    (hnw : rowsTransformR w.weights = some nw)
    (hc : characteristicsOf w.neighbors nw w._id_order = some c) :
    transformR w = some (applyChars { w with
      transformations := assocSet "R" nw w.transformations, weights := nw } c) := by
  rw [transformR_eq, hnw, Option.some_bind, W._characteristics]
  have h2 : characteristicsOf
      (W.neighbors { w with transformations := assocSet "R" nw w.transformations,
                            weights := nw })
      (W.weights { w with transformations := assocSet "R" nw w.transformations,
                          weights := nw })
      (W._id_order { w with transformations := assocSet "R" nw w.transformations,
                            weights := nw }) = some c := hc
  rw [h2, Option.map_some']

/-- C10: setting `transform = "R"` on a well formed container with
islands (ids with an empty neighbor and weight row) never divides by
the zero row sum of an island: the `R` branch builds each transformed
row by dividing only the entries actually present, so an island
contributes an empty list comprehension and its transformed row is
again empty; consequently, on any such container in which every
non-empty weight row has a nonzero row sum (and with no stale `R`
cache), the whole assignment completes without an exception. -/
theorem C10_island_safe_R (w : W)
    (hwf : WF w.neighbors w.weights w._id_order)
    (hnone : alookup "R" w.transformations = none)
    (hrows : ∀ p ∈ w.weights, p.2 ≠ [] → (p.2.sum).n ≠ 0) :
    ∃ w', W.set_transform w "R" = some (w', false) ∧
      ∀ p ∈ w.neighbors, p.2 = [] → alookup p.1 w'.weights = some [] := by
  obtain ⟨hkeys, hnd, hlen, hclosed, hperm, hne⟩ := hwf
  obtain ⟨nw, hnw⟩ := Option.isSome_iff_exists.mp (rowsTransformR_isSome hrows)
  have hkeys2 : assocKeys nw = assocKeys w.weights := rowsTransformR_keys hnw
  have hlen2 : ∀ p ∈ w.neighbors, (alookup p.1 nw).map List.length = some p.2.length := by
    intro p hp
    have hl := hlen p hp
    cases hwp : alookup p.1 w.weights with
    | none => rw [hwp] at hl; simp at hl
    | some wp =>
        rw [hwp] at hl
        simp only [Option.map_some'] at hl
        injection hl with hl
        have hsome : (alookup p.1 nw).isSome = true := by
          rw [alookup_isSome_iff, hkeys2, hkeys]
          exact List.mem_map_of_mem Prod.fst hp
        obtain ⟨nwp, hnwp⟩ := Option.isSome_iff_exists.mp hsome
        have hdiv : divRow wp (wp.sum * (1 : Q)) = some nwp := by
          have h1 := rowsTransformR_lookup hnw p.1
          rw [hwp, Option.some_bind] at h1
          rw [← h1]
          exact hnwp
        rw [hnwp, Option.map_some', divRow_length hdiv, hl]
  have hwf2 : WF w.neighbors nw w._id_order :=
    ⟨hkeys2.trans hkeys, hnd, hlen2, hclosed, hperm, hne⟩
  obtain ⟨c, hc⟩ := Option.isSome_iff_exists.mp (characteristicsOf_isSome hwf2)
  refine ⟨applyChars { w with _transform := some "R",
                              transformations := assocSet "R" nw w.transformations,
                              weights := nw } c, ?_, ?_⟩
  · rw [set_transform_R_uncached hnone,
      transformR_total
        (show rowsTransformR (W.weights { w with _transform := some "R" }) = some nw from hnw)
        (show characteristicsOf (W.neighbors { w with _transform := some "R" }) nw
          (W._id_order { w with _transform := some "R" }) = some c from hc),
      Option.map_some']
  · intro p hp hpe
    have hl := hlen p hp
    cases hwp : alookup p.1 w.weights with
    | none => rw [hwp] at hl; simp at hl
    | some wp =>
        rw [hwp] at hl
        simp only [Option.map_some'] at hl
        injection hl with hl
        have hwp0 : wp = [] := by
          rw [hpe] at hl
          simp only [List.length_nil] at hl
          exact List.eq_nil_of_length_eq_zero hl
        show alookup p.1 nw = some []
        rw [rowsTransformR_lookup hnw p.1, hwp, Option.some_bind, hwp0]
        rfl

theorem C10_witness :
    WF w10.neighbors w10.weights w10._id_order ∧
    (∀ p ∈ w10.weights, p.2 ≠ [] → (p.2.sum).n ≠ 0) ∧
    ∃ w', W.set_transform w10 "R" = some (w', false) ∧
      ∀ p ∈ w10.neighbors, p.2 = [] → alookup p.1 w'.weights = some [] :=
  ⟨by decide, by decide, C10_island_safe_R w10 (by decide) (by decide) (by decide)⟩
